import Mathlib

/-!
# github-rate-limit: the timestamp shim and the duration formatter

A shallow embedding of `src/api/index.go`: the `Time` wrapper with its
`UnmarshalJSON` / `MarshalJSON` methods, `humanDuration`, the response types and
`Handler`, together with the parts of the Go standard library they call
(`strconv.ParseInt`, `time.Unix`, `time.Until`, `Duration.Seconds/Minutes/Hours`,
`strings.ToLower`, `%d`, `encoding/json` on the response types, `http.Error`).

Conventions.
* `int64` values are integers, wrapped with `wrapInt64` where Go arithmetic can
  overflow; `uint64` values are naturals reduced modulo `2 ^ 64`.
* `float64` values are the rationals they denote; every float operation is the
  exact operation followed by `roundFloat64` (round to nearest, ties to even,
  53 bit significand, gradual underflow).  All floats of this program are below
  `2 ^ 64` in magnitude, so overflow to infinity does not arise.
* a Go `[]byte` (and the `string` handed to `ParseInt`) is a list of bytes; the
  text produced by `humanDuration` is ASCII and kept as a Lean string.
* the current instant read by `time.Until` is an explicit argument `now`.
* the diagnostic lines that the methods print to standard output are left out:
  they do not reach the values returned or stored.
* `Handler` takes the outcomes of `http.NewRequest` and of the transport, the decoder
  and the encoder as arguments; `jsonDecode` and `MarshalIndent` are the decoder and the
  encoder of `encoding/json` on the types of the source.  The text that `%v` prints for
  an error and what `fmt` writes for a verb are arguments too (`errText`, `verbs`).
-/

namespace RateLimit

/-! ## Machine integers -/

/-- Two's complement wrap of an integer into the `int64` range. -/
def wrapInt64 (x : Int) : Int := (x + 2 ^ 63) % 2 ^ 64 - 2 ^ 63

/-- Wrap of a natural into the `uint64` range. -/
def wrapUint64 (x : Nat) : Nat := x % 2 ^ 64

/-- Largest `uint64`. -/
def maxUint64 : Nat := 2 ^ 64 - 1

/-! ## float64 arithmetic on rationals -/

/-- Round a rational to the nearest integer, ties to the even neighbour. -/
def roundNearestEven (q : ℚ) : ℤ :=
  let f := ⌊q⌋
  if q - f < 1 / 2 then f
  else if 1 / 2 < q - f then f + 1
  else if f % 2 = 0 then f else f + 1

/-- Binary exponent of the binade of `q`, clamped below at the smallest normal
exponent of binary64. -/
def binade (q : ℚ) : ℤ := max (Int.log 2 |q|) (-1022)

/-- Spacing of binary64 numbers in the binade of `q`. -/
def ulp (q : ℚ) : ℚ := (2 : ℚ) ^ (binade q - 52)

/-- The binary64 number nearest to `q` (ties to even). -/
def roundFloat64 (q : ℚ) : ℚ := roundNearestEven (q / ulp q) * ulp q

/-- Go conversion `int(f)` of a float64: the fraction is discarded
(truncation toward zero). -/
def goInt (x : ℚ) : Int := if 0 ≤ x then ⌊x⌋ else ⌈x⌉

/-! ## package time -/

/-- A `time.Duration`: a count of nanoseconds (an `int64`). -/
abbrev Duration := Int

def Nanosecond : Duration := 1
def Second : Duration := 1000000000 * Nanosecond
def Minute : Duration := 60 * Second
def Hour : Duration := 60 * Minute

def minDuration : Duration := -2 ^ 63
def maxDuration : Duration := 2 ^ 63 - 1

/-- The method `Duration.Seconds`:
`sec := d / Second; nsec := d % Second; float64(sec) + float64(nsec)/1e9`. -/
def Duration.Seconds (d : Duration) : ℚ :=
  let sec := Int.tdiv d Second
  let nsec := Int.tmod d Second
  roundFloat64 (roundFloat64 sec + roundFloat64 (roundFloat64 nsec / 1000000000))

/-- The method `Duration.Minutes`:
`min := d / Minute; nsec := d % Minute; float64(min) + float64(nsec)/(60*1e9)`. -/
def Duration.Minutes (d : Duration) : ℚ :=
  let min := Int.tdiv d Minute
  let nsec := Int.tmod d Minute
  roundFloat64 (roundFloat64 min + roundFloat64 (roundFloat64 nsec / (60 * 1000000000)))

/-- The method `Duration.Hours`:
`hour := d / Hour; nsec := d % Hour; float64(hour) + float64(nsec)/(60*60*1e9)`. -/
def Duration.Hours (d : Duration) : ℚ :=
  let hour := Int.tdiv d Hour
  let nsec := Int.tmod d Hour
  roundFloat64 (roundFloat64 hour + roundFloat64 (roundFloat64 nsec / (60 * 60 * 1000000000)))

/-- Seconds from January 1, year 1 (the zero of `time.Time`) to the Unix epoch. -/
def unixToInternal : Int := 62135596800

/-- A `time.Time` without monotonic clock reading, as produced by `time.Unix`
and by the zero value: whole seconds since January 1 of year 1 and the
nanoseconds within that second. -/
structure GoTime where
  sec : Int
  nsec : Int
deriving DecidableEq, Repr

/-- The zero value of `time.Time`: January 1, year 1, 00:00:00 UTC. -/
def GoTime.zero : GoTime := ⟨0, 0⟩

/-- The function `time.Unix(sec, nsec)`: nanoseconds outside `[0, 1e9)` are
carried into the seconds, which are then shifted to the internal epoch with
`int64` arithmetic. -/
def GoTime.Unix (sec nsec : Int) : GoTime :=
  if nsec < 0 ∨ 1000000000 ≤ nsec then
    let n := Int.tdiv nsec 1000000000
    let sec1 := wrapInt64 (sec + n)
    let nsec1 := nsec - n * 1000000000
    if nsec1 < 0 then
      ⟨wrapInt64 (wrapInt64 (sec1 - 1) + unixToInternal), nsec1 + 1000000000⟩
    else
      ⟨wrapInt64 (sec1 + unixToInternal), nsec1⟩
  else
    ⟨wrapInt64 (sec + unixToInternal), nsec⟩

/-- Nanoseconds from the zero time to `t`, as an unbounded integer. -/
def GoTime.nanos (t : GoTime) : Int := t.sec * 1000000000 + t.nsec

/-- The method `Time.Sub`, by its documented contract: the duration `t - u`,
replaced by the maximum (or minimum) duration when it does not fit. -/
def GoTime.Sub (t u : GoTime) : Duration :=
  let d := t.nanos - u.nanos
  if d < minDuration then minDuration
  else if maxDuration < d then maxDuration
  else d

/-- The function `time.Until(t)` for a `t` without monotonic reading:
`t.Sub(time.Now())`, with the clock reading `now` made explicit. -/
def Until (now t : GoTime) : Duration := t.Sub now

/-! ## package strconv -/

/-- A Go byte slice, also the bytes of a Go string. -/
abbrev Bytes := List UInt8

/-- The bytes of an ASCII text: `[]byte(s)`. -/
def toBytes (s : String) : Bytes := s.data.map (fun c => UInt8.ofNat c.toNat)

/-- The two causes carried by a `*strconv.NumError`. -/
inductive NumError where
  | ErrSyntax
  | ErrRange
deriving DecidableEq, Repr

/-- A Go `error` value (`none` is `nil`). -/
abbrev GoError := Option NumError

/-- The helper `lower(c)` of strconv: `c | ('x' - 'X')`. -/
def lower (c : Nat) : Nat := c ||| 32

/-- The digit value that the loop of `ParseUint` assigns to a byte, `none` for
the `default` case of its switch (base 10 never enables underscores). -/
def digitVal (c : UInt8) : Option Nat :=
  if 48 ≤ c.toNat ∧ c.toNat ≤ 57 then some (c.toNat - 48)
  else if 97 ≤ lower c.toNat ∧ lower c.toNat ≤ 122 then some (lower c.toNat - 97 + 10)
  else none

/-- The loop `for _, c := range []byte(s)` of `ParseUint`, with accumulator `n`. -/
def parseUintLoop (base cutoff maxVal : Nat) : Bytes → Nat → Nat × GoError
  | [], n => (n, none)
  | c :: cs, n =>
    match digitVal c with
    | none => (0, some NumError.ErrSyntax)
    | some d =>
      if base ≤ d then (0, some NumError.ErrSyntax)
      else if cutoff ≤ n then (maxVal, some NumError.ErrRange)
      else
        let n0 := wrapUint64 (n * base)
        let n1 := wrapUint64 (n0 + d)
        if n1 < n0 ∨ maxVal < n1 then (maxVal, some NumError.ErrRange)
        else parseUintLoop base cutoff maxVal cs n1

/-- The function `strconv.ParseUint(s, 10, 64)`. -/
def ParseUint (s : Bytes) : Nat × GoError :=
  if s = [] then (0, some NumError.ErrSyntax)
  else parseUintLoop 10 (maxUint64 / 10 + 1) (2 ^ 64 - 1) s 0

/-- The function `strconv.ParseInt(s, 10, 64)`. -/
def ParseInt (s : Bytes) : Int × GoError :=
  match s with
  | [] => (0, some NumError.ErrSyntax)
  | c :: rest =>
    let neg : Bool := c.toNat = 45
    let s1 : Bytes := if c.toNat = 43 ∨ c.toNat = 45 then rest else c :: rest
    match ParseUint s1 with
    | (_, some NumError.ErrSyntax) => (0, some NumError.ErrSyntax)
    | (un, _) =>
      let cutoff : Nat := 2 ^ 63
      if ¬ neg ∧ cutoff ≤ un then ((cutoff : Int) - 1, some NumError.ErrRange)
      else if neg ∧ cutoff < un then (-(cutoff : Int), some NumError.ErrRange)
      else
        let n := wrapInt64 un
        (if neg then wrapInt64 (-n) else n, none)

/-! ## package strings and fmt -/

/-- The function `strings.ToLower` on ASCII text: upper case letters are moved
to lower case, every other character is kept. -/
def ToLower (s : String) : String := String.mk (s.data.map Char.toLower)

/-- The verb `%d` of `fmt` applied to an `int`: its decimal numeral. -/
def fmtD (n : Int) : String := toString n

/-! ## src/api/index.go -/

/-- The type `Time` of the source: `struct { time.Time }`. -/
structure Time where
  time : GoTime
deriving DecidableEq, Repr

/-- Memory cells holding `Time` values; a `*Time` is the index of its cell. -/
abbrev Store := List Time

/-- A pointer to a `Time`. -/
abbrev Ptr := Nat

/-- The function `humanDuration` of the source. -/
def humanDuration (d : Duration) : String :=
  let seconds := goInt (Duration.Seconds d)
  if seconds < 1 then "Less than a second"
  else if seconds = 1 then "1 second"
  else if seconds < 60 then fmtD seconds ++ " seconds"
  else
    let minutes := goInt (Duration.Minutes d)
    if minutes = 1 then "About a minute"
    else if minutes < 60 then fmtD minutes ++ " minutes"
    else
      let hours := goInt (roundFloat64 (Duration.Hours d + 1 / 2))
      if hours = 1 then "About an hour"
      else if hours < 48 then fmtD hours ++ " hours"
      else if hours < 24 * 7 * 2 then fmtD (Int.tdiv hours 24) ++ " days"
      else if hours < 24 * 30 * 2 then fmtD (Int.tdiv (Int.tdiv hours 24) 7) ++ " weeks"
      else if hours < 24 * 365 * 2 then fmtD (Int.tdiv (Int.tdiv hours 24) 30) ++ " months"
      else fmtD (Int.tdiv (Int.tdiv (goInt (Duration.Hours d)) 24) 365) ++ " years"

/-- The method `(t *Time) UnmarshalJSON(b []byte) error`.  The pointer `t` is a
local variable of the method: the statement `t = &Time{time.Unix(i, 0)}` stores
the new value in a fresh cell and makes the local `t` point to it.  The result
is the store after the call, the final value of the local `t`, and the error. -/
def Time.UnmarshalJSON (st : Store) (t : Ptr) (b : Bytes) : Store × Ptr × GoError :=
  match ParseInt b with
  | (_, some err) => (st, t, some err)
  | (i, none) =>
    let fresh : Ptr := st.length
    (st ++ [⟨GoTime.Unix i 0⟩], fresh, none)

/-- The method `(t Time) MarshalJSON() ([]byte, error)`, reading the clock as `now`. -/
def Time.MarshalJSON (now : GoTime) (t : Time) : Bytes × GoError :=
  let d := Until now t.time
  if d ≤ 0 then (toBytes "\"\"", none)
  else
    let s := "\"" ++ ToLower (humanDuration d) ++ "\""
    (toBytes s, none)

/-- Decoding one `reset` field as `encoding/json` does for a field of the zero
`Response`: the field starts as the zero `Time`, `UnmarshalJSON` is called on
its address with the bytes of the literal, and the field is read back. -/
def decodeReset (b : Bytes) : Option Time × GoError :=
  let st : Store := [⟨GoTime.zero⟩]
  let r := Time.UnmarshalJSON st 0 b
  (r.1.get? 0, r.2.2)


/-! ## Auxiliary definitions used in the proofs -/

/-- The common shape of `Duration.Seconds`, `Duration.Minutes` and `Duration.Hours`:
the float count of units of `U` nanoseconds in `d`. -/
def floatUnits (U : Int) (d : Duration) : ℚ :=
  roundFloat64 (roundFloat64 (Int.tdiv d U) + roundFloat64 (roundFloat64 (Int.tmod d U) / U))

/-! ## The wire format in the words of the specification -/

/-- A decimal digit. -/
def isDigitByte (c : UInt8) : Bool := 48 ≤ c.toNat && c.toNat ≤ 57

/-- The number written by a string of decimal digits, most significant first. -/
def decimalValue (ds : Bytes) : Nat := ds.foldl (fun n c => n * 10 + (c.toNat - 48)) 0

/-- The specification of the wire format: a base-10 signed 64-bit integer literal is an
optional sign followed by one or more decimal digits whose value lies in
`[-2 ^ 63, 2 ^ 63 - 1]`; the result is that value, `none` for every other input. -/
def int64Literal (b : Bytes) : Option Int :=
  match b with
  | [] => none
  | c :: rest =>
    let digits : Bytes := if c.toNat = 43 ∨ c.toNat = 45 then rest else c :: rest
    let v : Int := if c.toNat = 45 then -(decimalValue digits : Int) else (decimalValue digits : Int)
    if digits ≠ [] ∧ digits.all isDigitByte = true ∧ -2 ^ 63 ≤ v ∧ v ≤ 2 ^ 63 - 1 then some v
    else none
/-- The rounded hour count of the source: `int(d.Hours() + 0.5)`. -/
def roundedHours (d : Duration) : Int := goInt (roundFloat64 (Duration.Hours d + 1 / 2))

/-- The decimal digit characters. -/
def digitChars : List Char := ['0', '1', '2', '3', '4', '5', '6', '7', '8', '9']

/-- The number written by a run of decimal digit characters. -/
def charsValue (cs : List Char) : Nat := cs.foldl (fun a c => a * 10 + (c.toNat - 48)) 0

/-- The integer written by a decimal numeral with an optional minus sign. -/
def numeralValue (cs : List Char) : Int :=
  match cs with
  | '-' :: r => -(charsValue r : Int)
  | r => (charsValue r : Int)

/-- The last three characters of a text, last first. -/
def lastThree (s : String) : List Char := s.data.reverse.take 3

/-! ## The response types and their JSON encoding -/

set_option linter.dupNamespace false

/-- The type `RateLimit` of the source. -/
structure RateLimit where
  Limit : Int
  Remaining : Int
  Reset : Time
deriving DecidableEq, Repr

/-- The type `Resources` of the source. -/
structure Resources where
  Core : RateLimit
  Search : RateLimit
  GraphQL : RateLimit
  IntegrationManifest : RateLimit
deriving DecidableEq, Repr

/-- The type `Response` of the source. -/
structure Response where
  Resources : Resources
  Rate : RateLimit
deriving DecidableEq, Repr

/-- The five `RateLimit` values of a `Response`, also the places of their `Reset`
fields: the cell of bucket `k` is cell `k.addr`. -/
inductive Bucket where
  | core
  | search
  | graphql
  | integration_manifest
  | rate
deriving DecidableEq, Repr

/-- The cell that holds the `Reset` field of a bucket while a `Response` is decoded. -/
def Bucket.addr : Bucket → Ptr
  | core => 0
  | search => 1
  | graphql => 2
  | integration_manifest => 3
  | rate => 4

/-- The Go `error` values that `Handler` meets: an error of `net/http` or of
`encoding/json` given by its text, the `*strconv.NumError` that `UnmarshalJSON` returns
for the bytes `input`, and the error of a `MarshalJSON` method as `encoding/json` wraps it. -/
inductive HandlerError where
  | lib (text : Bytes)
  | num (e : NumError) (input : Bytes)
  | marshaler (e : NumError)
deriving DecidableEq, Repr

/-- A value that `encoding/json` writes for a field of `RateLimit`: an `int64` in
decimal, or the bytes that a `MarshalJSON` method returned. -/
inductive JSONLeaf where
  | number (n : Int)
  | raw (b : Bytes)
deriving DecidableEq, Repr

/-- The JSON object written for a `RateLimit`: its members in writing order. -/
abbrev RateLimitObject := List (String × JSONLeaf)

/-- The JSON object written for a `Resources`. -/
abbrev ResourcesObject := List (String × RateLimitObject)

/-- A member value of the JSON object written for a `Response`. -/
inductive JSONMember where
  | resources (o : ResourcesObject)
  | rateLimit (o : RateLimitObject)
deriving DecidableEq, Repr

/-- The JSON object written for a `Response`. -/
abbrev ResponseObject := List (String × JSONMember)

/-- The encoder of `encoding/json` on a `RateLimit`, by the struct tags of the source:
`limit` and `remaining` carry `omitempty` and are left out when they are 0; `reset` is a
struct, which `omitempty` never leaves out, and is written by its `MarshalJSON` method,
whose error aborts the encoding.  The encoder checks that the bytes of the method are
valid JSON and copies them with `<`, `>` and `&` escaped; the bytes of this method are a
quoted text of letters, digits and spaces (`MarshalJSON_plain`) and pass unchanged.  The
clock reading of that call is `now`. -/
def marshalRateLimit (now : GoTime) (r : RateLimit) : RateLimitObject × Option HandlerError :=
  match Time.MarshalJSON now r.Reset with
  | (_, some err) => ([], some (HandlerError.marshaler err))
  | (b, none) =>
    ((if r.Limit = 0 then [] else [("limit", JSONLeaf.number r.Limit)]) ++
      (if r.Remaining = 0 then [] else [("remaining", JSONLeaf.number r.Remaining)]) ++
      [("reset", JSONLeaf.raw b)], none)

/-- The encoder of `encoding/json` on a `Resources`; `clock k` is the clock reading while
the `reset` of bucket `k` is written. -/
def marshalResources (clock : Bucket → GoTime) (r : Resources) :
    ResourcesObject × Option HandlerError :=
  match marshalRateLimit (clock Bucket.core) r.Core with
  | (_, some err) => ([], some err)
  | (core, none) =>
    match marshalRateLimit (clock Bucket.search) r.Search with
    | (_, some err) => ([], some err)
    | (search, none) =>
      match marshalRateLimit (clock Bucket.graphql) r.GraphQL with
      | (_, some err) => ([], some err)
      | (graphql, none) =>
        match marshalRateLimit (clock Bucket.integration_manifest) r.IntegrationManifest with
        | (_, some err) => ([], some err)
        | (manifest, none) =>
          ([("core", core), ("search", search), ("graphql", graphql),
            ("integration_manifest", manifest)], none)

/-- The encoder of `encoding/json` on a `Response`. -/
def marshalResponse (clock : Bucket → GoTime) (s : Response) :
    ResponseObject × Option HandlerError :=
  match marshalResources clock s.Resources with
  | (_, some err) => ([], some err)
  | (resources, none) =>
    match marshalRateLimit (clock Bucket.rate) s.Rate with
    | (_, some err) => ([], some err)
    | (rate, none) =>
      ([("resources", JSONMember.resources resources), ("rate", JSONMember.rateLimit rate)],
        none)

/-- Indentation: `depth` times two spaces. -/
def indentation : Nat → Bytes
  | 0 => []
  | depth + 1 => 32 :: 32 :: indentation depth

/-- A line break followed by the indentation of nesting `depth`. -/
def newlineIndent (depth : Nat) : Bytes := 10 :: indentation depth

/-- A member name with its quotes, the colon and the space that indentation adds. -/
def renderKey (k : String) : Bytes := toBytes ("\"" ++ k ++ "\"") ++ [58, 32]

/-- The bytes of a leaf value. -/
def renderLeaf : JSONLeaf → Bytes
  | JSONLeaf.number n => toBytes (fmtD n)
  | JSONLeaf.raw b => b

/-- The members of an object at nesting `depth`, a comma and a line break between them. -/
def renderMembers {α : Type} (render : α → Bytes) (depth : Nat) : List (String × α) → Bytes
  | [] => []
  | (k, v) :: rest =>
    renderKey k ++ render v ++
      (match rest with
        | [] => []
        | _ :: _ => 44 :: newlineIndent depth) ++
      renderMembers render depth rest

/-- An object at nesting `depth` as `json.MarshalIndent(v, "", "  ")` lays it out. -/
def renderObject {α : Type} (render : α → Bytes) (depth : Nat) (o : List (String × α)) :
    Bytes :=
  match o with
  | [] => [123, 125]
  | _ :: _ =>
    123 :: newlineIndent (depth + 1) ++ renderMembers render (depth + 1) o ++
      newlineIndent depth ++ [125]

/-- The bytes of a member value of the `Response` object, at nesting `depth`. -/
def renderMember (depth : Nat) : JSONMember → Bytes
  | JSONMember.resources o => renderObject (renderObject renderLeaf (depth + 1)) depth o
  | JSONMember.rateLimit o => renderObject renderLeaf depth o

/-- The call `json.MarshalIndent(s, "", "  ")` of the source. -/
def MarshalIndent (clock : Bucket → GoTime) (s : Response) : Bytes × Option HandlerError :=
  match marshalResponse clock s with
  | (_, some err) => ([], some err)
  | (o, none) => (renderObject (renderMember 1) 0 o, none)

/-! ## The handler -/

/-- The call `fmt.Fprintf(w, format)` without operands: the text before the first `%` is
copied to the writer; what the verb processing writes from there on is `verbs`. -/
def Fprintf (verbs : Bytes → Bytes) : Bytes → Bytes
  | [] => []
  | c :: rest => if c = 37 then verbs (c :: rest) else c :: Fprintf verbs rest

/-- What a handler has written to its `http.ResponseWriter`: the status, the
`Content-Type` header when the handler set it, and the body. -/
structure Written where
  status : Nat
  contentType : Option String
  body : Bytes
deriving DecidableEq, Repr

/-- The call `http.Error(w, msg, code)`: plain text, the code, the message and a line break. -/
def httpError (msg : Bytes) (code : Nat) : Written :=
  ⟨code, some "text/plain; charset=utf-8", msg ++ [10]⟩

/-- The body of the upstream response as the decoder sees it: nothing at all, bytes on
which the decoder itself reports an error (given by its text), or an object of the
expected shape with the decoded `limit` and `remaining` of each bucket and, in the order of
the body, the raw bytes of every `reset` value. -/
inductive Body where
  | missing
  | invalid (err : Bytes)
  | object (limit remaining : Bucket → Int) (resets : List (Bucket × Bytes))

/-- The decoder on the `reset` values of the body, in order: each is handed to
`UnmarshalJSON` on the address of its field, and the first error ends the decoding. -/
def decodeResets : List (Bucket × Bytes) → Store → Store × Option HandlerError
  | [], st => (st, none)
  | (k, b) :: rest, st =>
    match Time.UnmarshalJSON st k.addr b with
    | (st1, _, some e) => (st1, some (HandlerError.num e b))
    | (st1, _, none) => decodeResets rest st1

/-- The `RateLimit` of bucket `k` read from the decoded numbers and the cells. -/
def rateLimitOf (limit remaining : Bucket → Int) (st : Store) (k : Bucket) : RateLimit :=
  ⟨limit k, remaining k, st.getD k.addr ⟨GoTime.zero⟩⟩

/-- The call `json.NewDecoder(resp.Body).Decode(&s)` on `var s Response`. -/
def jsonDecode (body : Body) : Response × Option HandlerError :=
  let zero : RateLimit := ⟨0, 0, ⟨GoTime.zero⟩⟩
  match body with
  | Body.missing => (⟨⟨zero, zero, zero, zero⟩, zero⟩, some (HandlerError.lib (toBytes "EOF")))
  | Body.invalid err => (⟨⟨zero, zero, zero, zero⟩, zero⟩, some (HandlerError.lib err))
  | Body.object limit remaining resets =>
    let r := decodeResets resets (List.replicate 5 ⟨GoTime.zero⟩)
    (⟨⟨rateLimitOf limit remaining r.1 Bucket.core,
        rateLimitOf limit remaining r.1 Bucket.search,
        rateLimitOf limit remaining r.1 Bucket.graphql,
        rateLimitOf limit remaining r.1 Bucket.integration_manifest⟩,
      rateLimitOf limit remaining r.1 Bucket.rate⟩, r.2)

/-- The function `Handler` of the source.  The outcomes of `http.NewRequest` and of
`http.DefaultClient.Do` are `newRequest` and `doRequest`; the decoder and the encoder are
`decode` and `marshalIndent`; `errText` is the text that `%v` prints for an error. -/
def Handler (errText : HandlerError → Bytes) (verbs : Bytes → Bytes)
    (newRequest : Option HandlerError) (doRequest : Body × Option HandlerError)
    (decode : Body → Response × Option HandlerError)
    (marshalIndent : Response → Bytes × Option HandlerError) : Written :=
  match newRequest with
  | some err => httpError (toBytes "creating request failed: " ++ errText err) 500
  | none =>
    match doRequest with
    | (_, some err) => httpError (toBytes "doing request failed: " ++ errText err) 500
    | (body, none) =>
      match decode body with
      | (_, some err) => httpError (toBytes "decoding json failed: " ++ errText err) 500
      | (s, none) =>
        match marshalIndent s with
        | (_, some err) => httpError (toBytes "encoding json failed: " ++ errText err) 500
        | (json, none) => ⟨200, none, Fprintf verbs json⟩

/-- The characters allowed between the quotes of an encoded `reset`: lower case letters,
decimal digits and the space. -/
def isPlainByte (c : UInt8) : Bool :=
  (97 ≤ c.toNat && c.toNat ≤ 122) || (48 ≤ c.toNat && c.toNat ≤ 57) || c.toNat = 32

/-- No two spaces in a row. -/
def singleSpaces : Bytes → Bool
  | [] => true
  | [_] => true
  | a :: b :: rest => !(a.toNat = 32 && b.toNat = 32) && singleSpaces (b :: rest)

/-- Lower case letters, digits and single spaces only. -/
def plainText (bs : Bytes) : Bool := bs.all isPlainByte && singleSpaces bs

/-! ## Rounding to binary64 -/

theorem roundNearestEven_ge_floor (q : ℚ) : ⌊q⌋ ≤ roundNearestEven q := by
  unfold roundNearestEven
  simp only
  split_ifs <;> omega

theorem roundNearestEven_le_floor_succ (q : ℚ) : roundNearestEven q ≤ ⌊q⌋ + 1 := by
  unfold roundNearestEven
  simp only
  split_ifs <;> omega

theorem roundNearestEven_intCast (n : ℤ) : roundNearestEven (n : ℚ) = n := by
  unfold roundNearestEven
  simp

theorem le_roundNearestEven (q : ℚ) (n : ℤ) (h : (n : ℚ) ≤ q) : n ≤ roundNearestEven q :=
  le_trans (Int.le_floor.mpr h) (roundNearestEven_ge_floor q)

theorem roundNearestEven_le (q : ℚ) (n : ℤ) (h : q ≤ (n : ℚ)) : roundNearestEven q ≤ n := by
  rcases eq_or_lt_of_le h with h1 | h1
  · rw [h1, roundNearestEven_intCast]
  · have : ⌊q⌋ < n := Int.floor_lt.mpr h1
    have := roundNearestEven_le_floor_succ q
    omega

theorem roundNearestEven_mono {x y : ℚ} (h : x ≤ y) : roundNearestEven x ≤ roundNearestEven y := by
  have hf : ⌊x⌋ ≤ ⌊y⌋ := Int.floor_mono h
  rcases eq_or_lt_of_le hf with he | hl
  · unfold roundNearestEven
    simp only
    rw [he]
    have hxy : x - (⌊y⌋ : ℚ) ≤ y - (⌊y⌋ : ℚ) := by linarith
    split_ifs <;> first | omega | (exfalso; linarith)
  · have h1 := roundNearestEven_le_floor_succ x
    have h2 := roundNearestEven_ge_floor y
    omega

theorem ulp_pos (q : ℚ) : 0 < ulp q := by
  unfold ulp
  exact zpow_pos (by norm_num) _

theorem roundFloat64_zero : roundFloat64 0 = 0 := by
  unfold roundFloat64
  simp [roundNearestEven]

theorem roundFloat64_nonneg {x : ℚ} (h : 0 ≤ x) : 0 ≤ roundFloat64 x := by
  unfold roundFloat64
  have hu := ulp_pos x
  have : (0 : ℤ) ≤ roundNearestEven (x / ulp x) :=
    le_roundNearestEven _ 0 (by simpa using div_nonneg h hu.le)
  have : (0 : ℚ) ≤ (roundNearestEven (x / ulp x) : ℚ) := by exact_mod_cast this
  exact mul_nonneg this hu.le

theorem roundFloat64_nonpos {x : ℚ} (h : x ≤ 0) : roundFloat64 x ≤ 0 := by
  unfold roundFloat64
  have hu := ulp_pos x
  have : roundNearestEven (x / ulp x) ≤ (0 : ℤ) :=
    roundNearestEven_le _ 0 (by simpa using div_nonpos_of_nonpos_of_nonneg h hu.le)
  have : (roundNearestEven (x / ulp x) : ℚ) ≤ 0 := by exact_mod_cast this
  exact mul_nonpos_of_nonpos_of_nonneg this hu.le


theorem binade_ge (q : ℚ) : -1022 ≤ binade q := le_max_right _ _

theorem binade_mono {x y : ℚ} (hx : 0 < x) (h : x ≤ y) : binade x ≤ binade y := by
  unfold binade
  have hy : 0 < y := lt_of_lt_of_le hx h
  rw [abs_of_pos hx, abs_of_pos hy]
  exact max_le_max (Int.log_mono_right hx h) le_rfl

/-- A positive rational is below the top of its binade. -/
theorem lt_two_zpow_binade_succ {x : ℚ} (hx : 0 < x) : x < (2 : ℚ) ^ (binade x + 1) := by
  have h1 : x < ((2 : ℕ) : ℚ) ^ (Int.log 2 x + 1) := Int.lt_zpow_succ_log_self (by norm_num) x
  have h2 : ((2 : ℕ) : ℚ) ^ (Int.log 2 x + 1) ≤ ((2 : ℕ) : ℚ) ^ (binade x + 1) := by
    apply zpow_le_zpow_right₀ (by norm_num)
    unfold binade
    rw [abs_of_pos hx]
    have := le_max_left (Int.log 2 x) (-1022)
    omega
  have h3 := lt_of_lt_of_le h1 h2
  simpa using h3

/-- The rounded value of a positive rational stays within the closure of its binade (upper end). -/
theorem roundFloat64_le_binade_top {x : ℚ} (hx : 0 < x) :
    roundFloat64 x ≤ (2 : ℚ) ^ (binade x + 1) := by
  unfold roundFloat64
  have hu := ulp_pos x
  have htop : (2 : ℚ) ^ (binade x + 1) = ((2 ^ 53 : ℤ) : ℚ) * ulp x := by
    unfold ulp
    have : binade x + 1 = 53 + (binade x - 52) := by ring
    rw [this, zpow_add₀ (by norm_num : (2 : ℚ) ≠ 0)]
    norm_num
  rw [htop]
  apply mul_le_mul_of_nonneg_right _ hu.le
  have : roundNearestEven (x / ulp x) ≤ (2 ^ 53 : ℤ) := by
    apply roundNearestEven_le
    rw [div_le_iff₀ hu, ← htop]
    exact (lt_two_zpow_binade_succ hx).le
  exact_mod_cast this

/-- The rounded value of a rational at or above a normal power of two stays at or above it. -/
theorem le_roundFloat64_of_binade_eq_log {y : ℚ} (hy : 0 < y) (he : binade y = Int.log 2 y) :
    (2 : ℚ) ^ (binade y) ≤ roundFloat64 y := by
  unfold roundFloat64
  have hu := ulp_pos y
  have hbot : (2 : ℚ) ^ (binade y) = ((2 ^ 52 : ℤ) : ℚ) * ulp y := by
    unfold ulp
    have : binade y = 52 + (binade y - 52) := by ring
    nth_rewrite 1 [this]
    rw [zpow_add₀ (by norm_num : (2 : ℚ) ≠ 0)]
    norm_num
  rw [hbot]
  apply mul_le_mul_of_nonneg_right _ hu.le
  have : (2 ^ 52 : ℤ) ≤ roundNearestEven (y / ulp y) := by
    apply le_roundNearestEven
    rw [le_div_iff₀ hu, ← hbot, he]
    have := Int.zpow_log_le_self (R := ℚ) (b := 2) (by norm_num) hy
    simpa using this
  exact_mod_cast this

/-- Rounding to binary64 is monotone on the non-negative rationals. -/
theorem roundFloat64_mono {x y : ℚ} (hx : 0 ≤ x) (h : x ≤ y) : roundFloat64 x ≤ roundFloat64 y := by
  rcases eq_or_lt_of_le hx with h0 | hpos
  · rw [← h0, roundFloat64_zero]
    exact roundFloat64_nonneg (le_trans hx h)
  · have hy : 0 < y := lt_of_lt_of_le hpos h
    have hb := binade_mono hpos h
    rcases eq_or_lt_of_le hb with he | hl
    · unfold roundFloat64
      have hu : ulp x = ulp y := by unfold ulp; rw [he]
      rw [hu]
      have hup := ulp_pos y
      apply mul_le_mul_of_nonneg_right _ hup.le
      have : roundNearestEven (x / ulp y) ≤ roundNearestEven (y / ulp y) :=
        roundNearestEven_mono (div_le_div_of_nonneg_right h hup.le)
      exact_mod_cast this
    · have hlog : binade y = Int.log 2 y := by
        have h1 := binade_ge x
        unfold binade at hl ⊢
        rw [abs_of_pos hy] at hl ⊢
        rcases max_cases (Int.log 2 y) (-1022) with ⟨h2, _⟩ | ⟨h2, _⟩
        · exact h2
        · rw [h2] at hl
          unfold binade at h1
          omega
      calc roundFloat64 x ≤ (2 : ℚ) ^ (binade x + 1) := roundFloat64_le_binade_top hpos
        _ ≤ (2 : ℚ) ^ (binade y) := zpow_le_zpow_right₀ (by norm_num) (by omega)
        _ ≤ roundFloat64 y := le_roundFloat64_of_binade_eq_log hy hlog

/-- Numbers `m * 2 ^ k` with a significand below `2 ^ 53` and an exponent not below the
smallest subnormal exponent are binary64 numbers: rounding leaves them unchanged. -/
theorem roundFloat64_exact (m k : ℤ) (hm : |m| < 2 ^ 53) (hk : -1074 ≤ k) :
    roundFloat64 ((m : ℚ) * (2 : ℚ) ^ k) = (m : ℚ) * (2 : ℚ) ^ k := by
  rcases eq_or_ne m 0 with h0 | hne
  · simp [h0, roundFloat64_zero]
  · set x : ℚ := (m : ℚ) * (2 : ℚ) ^ k with hxdef
    have h2k : (0 : ℚ) < (2 : ℚ) ^ k := zpow_pos (by norm_num) _
    have habs : |x| = ((|m| : ℤ) : ℚ) * (2 : ℚ) ^ k := by
      rw [hxdef, abs_mul, abs_of_pos h2k, Int.cast_abs]
    have hxpos : 0 < |x| := by
      rw [habs]
      have : (0 : ℚ) < ((|m| : ℤ) : ℚ) := by exact_mod_cast abs_pos.mpr hne
      positivity
    have hlt : |x| < (2 : ℚ) ^ (53 + k) := by
      rw [habs, zpow_add₀ (by norm_num : (2 : ℚ) ≠ 0)]
      apply mul_lt_mul_of_pos_right _ h2k
      have : ((|m| : ℤ) : ℚ) < (2 : ℚ) ^ (53 : ℤ) := by exact_mod_cast hm
      exact this
    have hlog : Int.log 2 |x| < 53 + k := by
      have := (Int.lt_zpow_iff_log_lt (R := ℚ) (b := 2) (by norm_num) hxpos).mp (by simpa using hlt)
      exact this
    have hb : binade x - 52 ≤ k := by
      unfold binade
      rcases max_cases (Int.log 2 |x|) (-1022) with ⟨h2, _⟩ | ⟨h2, _⟩ <;> rw [h2] <;> omega
    obtain ⟨j, hj⟩ : ∃ j : ℕ, k = (binade x - 52) + j := ⟨(k - (binade x - 52)).toNat, by omega⟩
    have hu := ulp_pos x
    have hpow : (2 : ℚ) ^ k = (2 : ℚ) ^ (binade x - 52) * (2 : ℚ) ^ j := by
      rw [← zpow_natCast, ← zpow_add₀ (by norm_num : (2 : ℚ) ≠ 0), ← hj]
    have hdiv : x / ulp x = ((m * 2 ^ j : ℤ) : ℚ) := by
      rw [div_eq_iff hu.ne']
      have hux : ulp x = (2 : ℚ) ^ (binade x - 52) := rfl
      rw [hux]
      generalize (2 : ℚ) ^ (binade x - 52) = u at hpow
      rw [hxdef, hpow]
      push_cast
      ring
    unfold roundFloat64
    rw [hdiv, roundNearestEven_intCast, ← hdiv]
    exact div_mul_cancel₀ x hu.ne'


/-! ## Unit conversions of durations -/

theorem roundFloat64_dyadic (a : ℤ) (j : ℕ) (ha : |a| < 2 ^ 53) (hj : j ≤ 1074) :
    roundFloat64 ((a : ℚ) / 2 ^ j) = (a : ℚ) / 2 ^ j := by
  have h := roundFloat64_exact a (-(j : ℤ)) ha (by omega)
  have e : (a : ℚ) * (2 : ℚ) ^ (-(j : ℤ)) = (a : ℚ) / 2 ^ j := by
    rw [zpow_neg, zpow_natCast, div_eq_mul_inv]
  rwa [e] at h

theorem roundFloat64_intCast (n : ℤ) (hn : |n| < 2 ^ 53) : roundFloat64 (n : ℚ) = n := by
  have h := roundFloat64_dyadic n 0 hn (by omega)
  simpa using h

theorem Seconds_eq_floatUnits (d : Duration) : Duration.Seconds d = floatUnits Second d := by
  unfold Duration.Seconds floatUnits Second Nanosecond
  norm_num

theorem Minutes_eq_floatUnits (d : Duration) : Duration.Minutes d = floatUnits Minute d := by
  unfold Duration.Minutes floatUnits Minute Second Nanosecond
  norm_num

theorem Hours_eq_floatUnits (d : Duration) : Duration.Hours d = floatUnits Hour d := by
  unfold Duration.Hours floatUnits Hour Minute Second Nanosecond
  norm_num

/-- A non-positive duration has a non-positive float count of units. -/
theorem floatUnits_nonpos (U : ℤ) (d : ℤ) (hU : 0 < U) (hd : d ≤ 0) :
    floatUnits U d ≤ 0 := by
  unfold floatUnits
  obtain ⟨m, rfl⟩ : ∃ m : ℤ, d = -m := ⟨-d, by omega⟩
  have hm : 0 ≤ m := by omega
  have hq : Int.tdiv (-m) U ≤ 0 := by
    rw [Int.neg_tdiv]
    have : 0 ≤ Int.tdiv m U := Int.tdiv_nonneg hm hU.le
    omega
  have hr : Int.tmod (-m) U ≤ 0 := by
    have h1 := Int.tdiv_add_tmod (-m) U
    rw [Int.neg_tdiv] at h1
    have h2 := Int.tdiv_add_tmod m U
    have h3 : 0 ≤ Int.tmod m U := Int.tmod_nonneg U hm
    linarith
  have hq1 : ((Int.tdiv (-m) U : ℤ) : ℚ) ≤ 0 := by exact_mod_cast hq
  have hr1 : ((Int.tmod (-m) U : ℤ) : ℚ) ≤ 0 := by exact_mod_cast hr
  have hUq : (0 : ℚ) < (U : ℚ) := by exact_mod_cast hU
  have h1 := roundFloat64_nonpos hq1
  have h2 := roundFloat64_nonpos hr1
  have h3 : roundFloat64 ((Int.tmod (-m) U : ℤ) : ℚ) / (U : ℚ) ≤ 0 :=
    div_nonpos_of_nonpos_of_nonneg h2 hUq.le
  have h4 := roundFloat64_nonpos h3
  exact roundFloat64_nonpos (by linarith)

theorem floatUnits_nonneg (U : ℤ) (d : ℤ) (hU : 0 < U) (hd : 0 ≤ d) :
    0 ≤ floatUnits U d := by
  unfold floatUnits
  have hq : 0 ≤ Int.tdiv d U := Int.tdiv_nonneg hd hU.le
  have hr : 0 ≤ Int.tmod d U := Int.tmod_nonneg U hd
  have hq1 : (0 : ℚ) ≤ ((Int.tdiv d U : ℤ) : ℚ) := by exact_mod_cast hq
  have hr1 : (0 : ℚ) ≤ ((Int.tmod d U : ℤ) : ℚ) := by exact_mod_cast hr
  have hUq : (0 : ℚ) < (U : ℚ) := by exact_mod_cast hU
  have h1 := roundFloat64_nonneg hq1
  have h2 := roundFloat64_nonneg hr1
  have h4 := roundFloat64_nonneg (div_nonneg h2 hUq.le)
  exact roundFloat64_nonneg (by linarith)

/-- Upper bound: when the exact count `d / U` is at most a binary64 number `a / 2 ^ j`,
so is the float count. -/
theorem floatUnits_le (U : ℤ) (d : ℤ) (a : ℤ) (j : ℕ)
    (hU : 0 < U) (hU2 : U ≤ 2 ^ 53) (hd : 0 ≤ d)
    (ha : a < 2 ^ 53) (hj : j ≤ 1074)
    (h : (d : ℚ) / (U : ℚ) ≤ (a : ℚ) / 2 ^ j) :
    floatUnits U d ≤ (a : ℚ) / 2 ^ j := by
  unfold floatUnits
  have hUq : (0 : ℚ) < (U : ℚ) := by exact_mod_cast hU
  have hq0 : 0 ≤ Int.tdiv d U := Int.tdiv_nonneg hd hU.le
  have hr0 : 0 ≤ Int.tmod d U := Int.tmod_nonneg U hd
  have hrU : Int.tmod d U < U := Int.tmod_lt_of_pos d hU
  have hdec : U * Int.tdiv d U + Int.tmod d U = d := Int.tdiv_add_tmod d U
  have hdecq : (d : ℚ) / U = (Int.tdiv d U : ℤ) + ((Int.tmod d U : ℤ) : ℚ) / U := by
    have hdq : (d : ℚ) = (U : ℚ) * (Int.tdiv d U : ℤ) + (Int.tmod d U : ℤ) := by
      exact_mod_cast hdec.symm
    rw [eq_comm, ← sub_eq_zero]
    field_simp
    linarith
  have hq0q : (0 : ℚ) ≤ ((Int.tdiv d U : ℤ) : ℚ) := by exact_mod_cast hq0
  have hr0q : (0 : ℚ) ≤ ((Int.tmod d U : ℤ) : ℚ) := by exact_mod_cast hr0
  have hfrac0 : (0 : ℚ) ≤ ((Int.tmod d U : ℤ) : ℚ) / U := div_nonneg hr0q hUq.le
  have hpow : (0 : ℚ) < 2 ^ j := by positivity
  -- the quotient is below the bound, hence small and exact
  have hqle : ((Int.tdiv d U : ℤ) : ℚ) ≤ (a : ℚ) / 2 ^ j := by linarith
  have hqa : Int.tdiv d U * 2 ^ j ≤ a := by
    have : ((Int.tdiv d U : ℤ) : ℚ) * 2 ^ j ≤ a := (le_div_iff₀ hpow).mp hqle
    exact_mod_cast this
  have hpow1 : (1 : ℤ) ≤ 2 ^ j := one_le_pow₀ (by norm_num)
  have hqsmall : Int.tdiv d U < 2 ^ 53 := by nlinarith
  have hflq : roundFloat64 ((Int.tdiv d U : ℤ) : ℚ) = (Int.tdiv d U : ℤ) :=
    roundFloat64_intCast _ (by rw [abs_of_nonneg hq0]; exact hqsmall)
  have hflr : roundFloat64 ((Int.tmod d U : ℤ) : ℚ) = (Int.tmod d U : ℤ) :=
    roundFloat64_intCast _ (by rw [abs_of_nonneg hr0]; omega)
  rw [hflq, hflr]
  -- the fraction is below the representable `a / 2 ^ j - q`
  have hrem : ((Int.tmod d U : ℤ) : ℚ) / U ≤ ((a - Int.tdiv d U * 2 ^ j : ℤ) : ℚ) / 2 ^ j := by
    push_cast
    rw [sub_div, mul_div_assoc, div_self hpow.ne', mul_one]
    linarith
  have hfrac : roundFloat64 (((Int.tmod d U : ℤ) : ℚ) / U)
      ≤ ((a - Int.tdiv d U * 2 ^ j : ℤ) : ℚ) / 2 ^ j := by
    have := roundFloat64_mono hfrac0 hrem
    rwa [roundFloat64_dyadic _ j (by rw [abs_of_nonneg (by omega)]; nlinarith) hj] at this
  have hfl0 := roundFloat64_nonneg hfrac0
  have hsum : ((Int.tdiv d U : ℤ) : ℚ) + roundFloat64 (((Int.tmod d U : ℤ) : ℚ) / U)
      ≤ (a : ℚ) / 2 ^ j := by
    have e : ((a - Int.tdiv d U * 2 ^ j : ℤ) : ℚ) / 2 ^ j
        = (a : ℚ) / 2 ^ j - (Int.tdiv d U : ℤ) := by
      push_cast
      rw [sub_div, mul_div_assoc, div_self hpow.ne', mul_one]
    rw [e] at hfrac
    linarith
  have ha0 : 0 ≤ a := by
    have : (0 : ℚ) ≤ (a : ℚ) / 2 ^ j := by linarith
    have : (0 : ℚ) ≤ (a : ℚ) := by
      by_contra hneg
      push_neg at hneg
      have := div_neg_of_neg_of_pos hneg hpow
      linarith
    exact_mod_cast this
  have := roundFloat64_mono (by linarith) hsum
  rwa [roundFloat64_dyadic a j (by rw [abs_of_nonneg ha0]; exact ha) hj] at this

/-- Lower bound: when the exact count `d / U` is at least a binary64 number `a / 2 ^ j`,
so is the float count. -/
theorem le_floatUnits (U : ℤ) (d : ℤ) (a : ℤ) (j : ℕ)
    (hU : 0 < U) (hU2 : U ≤ 2 ^ 53) (hd : 0 ≤ d)
    (ha0 : 0 ≤ a) (ha : a < 2 ^ 53) (hj : j ≤ 1074)
    (h : (a : ℚ) / 2 ^ j ≤ (d : ℚ) / (U : ℚ)) :
    (a : ℚ) / 2 ^ j ≤ floatUnits U d := by
  unfold floatUnits
  have hUq : (0 : ℚ) < (U : ℚ) := by exact_mod_cast hU
  have hq0 : 0 ≤ Int.tdiv d U := Int.tdiv_nonneg hd hU.le
  have hr0 : 0 ≤ Int.tmod d U := Int.tmod_nonneg U hd
  have hrU : Int.tmod d U < U := Int.tmod_lt_of_pos d hU
  have hdec : U * Int.tdiv d U + Int.tmod d U = d := Int.tdiv_add_tmod d U
  have hdecq : (d : ℚ) / U = (Int.tdiv d U : ℤ) + ((Int.tmod d U : ℤ) : ℚ) / U := by
    have hdq : (d : ℚ) = (U : ℚ) * (Int.tdiv d U : ℤ) + (Int.tmod d U : ℤ) := by
      exact_mod_cast hdec.symm
    rw [eq_comm, ← sub_eq_zero]
    field_simp
    linarith
  have hq0q : (0 : ℚ) ≤ ((Int.tdiv d U : ℤ) : ℚ) := by exact_mod_cast hq0
  have hr0q : (0 : ℚ) ≤ ((Int.tmod d U : ℤ) : ℚ) := by exact_mod_cast hr0
  have hfrac0 : (0 : ℚ) ≤ ((Int.tmod d U : ℤ) : ℚ) / U := div_nonneg hr0q hUq.le
  have hpow : (0 : ℚ) < 2 ^ j := by positivity
  have hc0 : (0 : ℚ) ≤ (a : ℚ) / 2 ^ j := div_nonneg (by exact_mod_cast ha0) hpow.le
  have hcfix := roundFloat64_dyadic a j (by rw [abs_of_nonneg ha0]; exact ha) hj
  have hflfrac0 := roundFloat64_nonneg hfrac0
  have hflr : roundFloat64 ((Int.tmod d U : ℤ) : ℚ) = (Int.tmod d U : ℤ) :=
    roundFloat64_intCast _ (by rw [abs_of_nonneg hr0]; omega)
  rw [hflr]
  have hsum : (a : ℚ) / 2 ^ j
      ≤ roundFloat64 ((Int.tdiv d U : ℤ) : ℚ) + roundFloat64 (((Int.tmod d U : ℤ) : ℚ) / U) := by
    rcases le_or_lt ((a : ℚ) / 2 ^ j) ((Int.tdiv d U : ℤ) : ℚ) with hcq | hqc
    · have := roundFloat64_mono hc0 hcq
      rw [hcfix] at this
      linarith
    · have hqa : Int.tdiv d U * 2 ^ j < a := by
        have : ((Int.tdiv d U : ℤ) : ℚ) * 2 ^ j < a := (lt_div_iff₀ hpow).mp hqc
        exact_mod_cast this
      have hpow1 : (1 : ℤ) ≤ 2 ^ j := one_le_pow₀ (by norm_num)
      have hqsmall : Int.tdiv d U < 2 ^ 53 := by nlinarith
      have hflq : roundFloat64 ((Int.tdiv d U : ℤ) : ℚ) = (Int.tdiv d U : ℤ) :=
        roundFloat64_intCast _ (by rw [abs_of_nonneg hq0]; exact hqsmall)
      rw [hflq]
      have e : ((a - Int.tdiv d U * 2 ^ j : ℤ) : ℚ) / 2 ^ j
          = (a : ℚ) / 2 ^ j - (Int.tdiv d U : ℤ) := by
        push_cast
        rw [sub_div, mul_div_assoc, div_self hpow.ne', mul_one]
      have hrem : ((a - Int.tdiv d U * 2 ^ j : ℤ) : ℚ) / 2 ^ j ≤ ((Int.tmod d U : ℤ) : ℚ) / U := by
        rw [e]
        linarith
      have hrem0 : (0 : ℚ) ≤ ((a - Int.tdiv d U * 2 ^ j : ℤ) : ℚ) / 2 ^ j := by
        rw [e]
        linarith
      have := roundFloat64_mono hrem0 hrem
      rw [roundFloat64_dyadic _ j (by rw [abs_of_nonneg (by omega)]; nlinarith) hj, e] at this
      linarith
  have := roundFloat64_mono hc0 hsum
  rwa [hcfix] at this

/-! ## Truncated counts -/

theorem goInt_lt_iff (x : ℚ) (n : ℤ) (hn : 1 ≤ n) : goInt x < n ↔ x < (n : ℚ) := by
  unfold goInt
  have hnq : (1 : ℚ) ≤ (n : ℚ) := by exact_mod_cast hn
  split_ifs with h
  · exact Int.floor_lt
  · push_neg at h
    constructor
    · intro _
      linarith
    · intro _
      have : ⌈x⌉ ≤ 0 := Int.ceil_le.mpr (by simpa using h.le)
      omega

theorem le_goInt_iff (x : ℚ) (n : ℤ) (hn : 1 ≤ n) : n ≤ goInt x ↔ (n : ℚ) ≤ x := by
  have := goInt_lt_iff x n hn
  constructor
  · intro h
    by_contra hc
    push_neg at hc
    have := this.mpr hc
    omega
  · intro h
    by_contra hc
    push_neg at hc
    have := this.mp hc
    linarith

/-- The truncated float count of units is below `n` exactly when the duration is below
`n` units, for every count up to 1024 and every unit up to `2 ^ 42` nanoseconds. -/
theorem goInt_floatUnits_lt_iff (U d n : ℤ) (hU : 0 < U) (hU2 : U ≤ 2 ^ 42)
    (hn1 : 1 ≤ n) (hn2 : n ≤ 1024) :
    goInt (floatUnits U d) < n ↔ d < n * U := by
  rw [goInt_lt_iff _ _ hn1]
  have hUq : (0 : ℚ) < (U : ℚ) := by exact_mod_cast hU
  have hU2q : (U : ℚ) ≤ 2 ^ 42 := by exact_mod_cast hU2
  have hnq : (1 : ℚ) ≤ (n : ℚ) := by exact_mod_cast hn1
  constructor
  · intro h
    by_contra hc
    push_neg at hc
    have hd : 0 ≤ d := le_trans (by positivity) hc
    have hle : ((n : ℤ) : ℚ) / 2 ^ 0 ≤ (d : ℚ) / (U : ℚ) := by
      rw [le_div_iff₀ hUq]
      have : ((n * U : ℤ) : ℚ) ≤ (d : ℚ) := by exact_mod_cast hc
      push_cast at this
      simpa using this
    have := le_floatUnits U d n 0 hU (by omega) hd (by omega) (by omega) (by omega) hle
    simp at this
    linarith
  · intro h
    rcases le_or_lt d 0 with hd | hd
    · have := floatUnits_nonpos U d hU hd
      linarith
    · have h1 : d ≤ n * U - 1 := by omega
      have h1q : (d : ℚ) ≤ (n : ℚ) * U - 1 := by exact_mod_cast h1
      have hle : (d : ℚ) / (U : ℚ) ≤ ((n * 2 ^ 42 - 1 : ℤ) : ℚ) / 2 ^ 42 := by
        rw [div_le_div_iff₀ hUq (by positivity)]
        push_cast
        nlinarith
      have := floatUnits_le U d (n * 2 ^ 42 - 1) 42 hU (by omega) hd.le (by omega) (by omega) hle
      have e : ((n * 2 ^ 42 - 1 : ℤ) : ℚ) / 2 ^ 42 = (n : ℚ) - 1 / 2 ^ 42 := by
        push_cast
        ring
      rw [e] at this
      have : (0 : ℚ) < 1 / 2 ^ 42 := by positivity
      linarith

/-- The hour count rounded as in the source (`int(d.Hours() + 0.5)`) is below `n` exactly
when the duration is below `n - 1/2` hours, for every `n` up to 1024. -/
theorem goInt_hours_half_lt_iff (d n : ℤ) (hn1 : 1 ≤ n) (hn2 : n ≤ 1024) :
    goInt (roundFloat64 (Duration.Hours d + 1 / 2)) < n ↔ 2 * d < (2 * n - 1) * Hour := by
  rw [goInt_lt_iff _ _ hn1, Hours_eq_floatUnits]
  have hH : Hour = 3600000000000 := by decide
  have hnq : (1 : ℚ) ≤ (n : ℚ) := by exact_mod_cast hn1
  have hhalf : roundFloat64 ((1 : ℚ) / 2) = 1 / 2 := by
    have := roundFloat64_dyadic 1 1 (by norm_num) (by omega)
    simpa using this
  constructor
  · intro h
    by_contra hc
    push_neg at hc
    rw [hH] at hc
    have hd : 0 ≤ d := by omega
    have hle : ((2 * n - 1 : ℤ) : ℚ) / 2 ^ 1 ≤ (d : ℚ) / ((Hour : ℤ) : ℚ) := by
      rw [hH, div_le_div_iff₀ (by norm_num) (by norm_num)]
      have : (((2 * n - 1) * 3600000000000 : ℤ) : ℚ) ≤ ((2 * d : ℤ) : ℚ) := by exact_mod_cast hc
      push_cast at this ⊢
      linarith
    have h1 := le_floatUnits Hour d (2 * n - 1) 1 (by rw [hH]; norm_num) (by rw [hH]; norm_num)
      hd (by omega) (by omega) (by omega) hle
    have hsum : ((n : ℤ) : ℚ) ≤ floatUnits Hour d + 1 / 2 := by
      push_cast at h1
      linarith
    have h2 := roundFloat64_mono (by linarith) hsum
    rw [roundFloat64_intCast n (by rw [abs_of_nonneg (by omega)]; omega)] at h2
    linarith
  · intro h
    rw [hH] at h
    rcases le_or_lt d 0 with hd | hd
    · have h0 := floatUnits_nonpos Hour d (by rw [hH]; norm_num) hd
      rcases le_or_lt 0 (floatUnits Hour d + 1 / 2) with hs | hs
      · have := roundFloat64_mono hs (show floatUnits Hour d + 1 / 2 ≤ 1 / 2 by linarith)
        rw [hhalf] at this
        linarith
      · have := roundFloat64_nonpos hs.le
        linarith
    · have h1 : 2 * d ≤ (2 * n - 1) * 3600000000000 - 1 := by omega
      have h1q : (2 : ℚ) * d ≤ (2 * n - 1) * 3600000000000 - 1 := by exact_mod_cast h1
      have hle : (d : ℚ) / ((Hour : ℤ) : ℚ) ≤ ((n * 2 ^ 43 - 2 ^ 42 - 1 : ℤ) : ℚ) / 2 ^ 43 := by
        rw [hH, div_le_div_iff₀ (by norm_num) (by positivity)]
        push_cast
        nlinarith
      have h2 := floatUnits_le Hour d (n * 2 ^ 43 - 2 ^ 42 - 1) 43 (by rw [hH]; norm_num)
        (by rw [hH]; norm_num) hd.le (by omega) (by omega) hle
      have h0 := floatUnits_nonneg Hour d (by rw [hH]; norm_num) hd.le
      have hsum : floatUnits Hour d + 1 / 2 ≤ ((n * 2 ^ 43 - 1 : ℤ) : ℚ) / 2 ^ 43 := by
        have e : ((n * 2 ^ 43 - 1 : ℤ) : ℚ) / 2 ^ 43
            = ((n * 2 ^ 43 - 2 ^ 42 - 1 : ℤ) : ℚ) / 2 ^ 43 + 1 / 2 := by
          push_cast
          field_simp
          ring
        rw [e]
        linarith
      have h3 := roundFloat64_mono (by linarith) hsum
      rw [roundFloat64_dyadic _ 43 (by rw [abs_of_nonneg (by omega)]; omega) (by omega)] at h3
      have e : ((n * 2 ^ 43 - 1 : ℤ) : ℚ) / 2 ^ 43 = (n : ℚ) - 1 / 2 ^ 43 := by
        push_cast
        ring
      rw [e] at h3
      have : (0 : ℚ) < 1 / 2 ^ 43 := by positivity
      linarith

theorem Second_eq : Second = 1000000000 := by decide

theorem Minute_eq : Minute = 60000000000 := by decide

theorem Hour_eq : Hour = 3600000000000 := by decide

/-- The whole seconds of the source, `int(d.Seconds())`, against a threshold. -/
theorem seconds_lt_iff (d n : ℤ) (hn1 : 1 ≤ n) (hn2 : n ≤ 1024) :
    goInt (Duration.Seconds d) < n ↔ d < n * 1000000000 := by
  rw [Seconds_eq_floatUnits, goInt_floatUnits_lt_iff Second d n (by decide) (by decide) hn1 hn2,
    Second_eq]

/-- The whole minutes of the source, `int(d.Minutes())`, against a threshold. -/
theorem minutes_lt_iff (d n : ℤ) (hn1 : 1 ≤ n) (hn2 : n ≤ 1024) :
    goInt (Duration.Minutes d) < n ↔ d < n * 60000000000 := by
  rw [Minutes_eq_floatUnits, goInt_floatUnits_lt_iff Minute d n (by decide) (by decide) hn1 hn2,
    Minute_eq]

/-- The rounded hours of the source, `int(d.Hours() + 0.5)`, against a threshold. -/
theorem hours_lt_iff (d n : ℤ) (hn1 : 1 ≤ n) (hn2 : n ≤ 1024) :
    goInt (roundFloat64 (Duration.Hours d + 1 / 2)) < n ↔ d < n * 3600000000000 - 1800000000000 := by
  rw [goInt_hours_half_lt_iff d n hn1 hn2, Hour_eq]
  constructor <;> intro h <;> omega

/-! ## The buckets of humanDuration -/

theorem goInt_nonneg (x : ℚ) (h : 0 ≤ x) : 0 ≤ goInt x := by
  unfold goInt
  rw [if_pos h]
  exact Int.floor_nonneg.mpr h

/-- Text ending in a suffix differs from any text with another last character. -/
theorem append_ne_of_last (a b c : String) (hb : b.data ≠ [])
    (h : b.data.getLast? ≠ c.data.getLast?) : a ++ b ≠ c := by
  intro heq
  apply h
  have h1 : (a ++ b).data.getLast? = c.data.getLast? := by rw [heq]
  rw [String.data_append, List.getLast?_append_of_ne_nil _ hb] at h1
  exact h1

/-- The first buckets of `humanDuration`, with the float tests replaced by the
equivalent tests on the nanosecond count. -/
theorem humanDuration_eq (d : ℤ) :
    humanDuration d =
      if d < 1000000000 then "Less than a second"
      else if d < 2000000000 then "1 second"
      else if d < 60000000000 then fmtD (goInt (Duration.Seconds d)) ++ " seconds"
      else if d < 120000000000 then "About a minute"
      else if d < 3600000000000 then fmtD (goInt (Duration.Minutes d)) ++ " minutes"
      else if d < 5400000000000 then "About an hour"
      else
        let hours := goInt (roundFloat64 (Duration.Hours d + 1 / 2))
        if hours < 48 then fmtD hours ++ " hours"
        else if hours < 24 * 7 * 2 then fmtD (Int.tdiv hours 24) ++ " days"
        else if hours < 24 * 30 * 2 then fmtD (Int.tdiv (Int.tdiv hours 24) 7) ++ " weeks"
        else if hours < 24 * 365 * 2 then fmtD (Int.tdiv (Int.tdiv hours 24) 30) ++ " months"
        else fmtD (Int.tdiv (Int.tdiv (goInt (Duration.Hours d)) 24) 365) ++ " years" := by
  have hs1 := seconds_lt_iff d 1 (by norm_num) (by norm_num)
  have hs2 := seconds_lt_iff d 2 (by norm_num) (by norm_num)
  have hs60 := seconds_lt_iff d 60 (by norm_num) (by norm_num)
  have hm1 := minutes_lt_iff d 1 (by norm_num) (by norm_num)
  have hm2 := minutes_lt_iff d 2 (by norm_num) (by norm_num)
  have hm60 := minutes_lt_iff d 60 (by norm_num) (by norm_num)
  have hh1 := hours_lt_iff d 1 (by norm_num) (by norm_num)
  have hh2 := hours_lt_iff d 2 (by norm_num) (by norm_num)
  unfold humanDuration
  generalize goInt (Duration.Seconds d) = s at *
  generalize goInt (Duration.Minutes d) = m at *
  generalize goInt (roundFloat64 (Duration.Hours d + 1 / 2)) = h at *
  generalize goInt (Duration.Hours d) = h0 at *
  rcases lt_or_le d 1000000000 with c1 | c1
  · have a1 : s < 1 := by omega
    simp only [if_pos c1, if_pos a1]
  have a1 : ¬ s < 1 := by omega
  have b1 : ¬ d < 1000000000 := by omega
  rcases lt_or_le d 2000000000 with c2 | c2
  · have a2 : s = 1 := by omega
    simp only [if_neg b1, if_neg a1, if_pos c2, if_pos a2]
  have a2 : ¬ s = 1 := by omega
  have b2 : ¬ d < 2000000000 := by omega
  rcases lt_or_le d 60000000000 with c3 | c3
  · have a3 : s < 60 := by omega
    simp only [if_neg b1, if_neg a1, if_neg b2, if_neg a2, if_pos c3, if_pos a3]
  have a3 : ¬ s < 60 := by omega
  have b3 : ¬ d < 60000000000 := by omega
  rcases lt_or_le d 120000000000 with c4 | c4
  · have a4 : m = 1 := by omega
    simp only [if_neg b1, if_neg a1, if_neg b2, if_neg a2, if_neg b3, if_neg a3, if_pos c4,
      if_pos a4]
  have a4 : ¬ m = 1 := by omega
  have b4 : ¬ d < 120000000000 := by omega
  rcases lt_or_le d 3600000000000 with c5 | c5
  · have a5 : m < 60 := by omega
    simp only [if_neg b1, if_neg a1, if_neg b2, if_neg a2, if_neg b3, if_neg a3, if_neg b4,
      if_neg a4, if_pos c5, if_pos a5]
  have a5 : ¬ m < 60 := by omega
  have b5 : ¬ d < 3600000000000 := by omega
  rcases lt_or_le d 5400000000000 with c6 | c6
  · have a6 : h = 1 := by omega
    simp only [if_neg b1, if_neg a1, if_neg b2, if_neg a2, if_neg b3, if_neg a3, if_neg b4,
      if_neg a4, if_neg b5, if_neg a5, if_pos c6, if_pos a6]
  have a6 : ¬ h = 1 := by omega
  have b6 : ¬ d < 5400000000000 := by omega
  simp only [if_neg b1, if_neg a1, if_neg b2, if_neg a2, if_neg b3, if_neg a3, if_neg b4,
    if_neg a4, if_neg b5, if_neg a5, if_neg b6, if_neg a6]

/-- The truncated float count agrees with integer division, up to 1024 units. -/
theorem goInt_floatUnits_eq (U d : ℤ) (hU : 0 < U) (hU2 : U ≤ 2 ^ 42) (hd : 0 ≤ d)
    (hlt : d < 1024 * U) : goInt (floatUnits U d) = Int.tdiv d U := by
  have hq0 : 0 ≤ Int.tdiv d U := Int.tdiv_nonneg hd hU.le
  have hr0 : 0 ≤ Int.tmod d U := Int.tmod_nonneg U hd
  have hrU : Int.tmod d U < U := Int.tmod_lt_of_pos d hU
  have hdec : U * Int.tdiv d U + Int.tmod d U = d := Int.tdiv_add_tmod d U
  generalize Int.tdiv d U = n at *
  generalize Int.tmod d U = r at *
  have hn : n < 1024 := by nlinarith
  have hup := goInt_floatUnits_lt_iff U d (n + 1) hU hU2 (by omega) (by omega)
  have h1 : goInt (floatUnits U d) < n + 1 := hup.mpr (by nlinarith)
  rcases eq_or_lt_of_le hq0 with h0 | hpos
  · have := goInt_nonneg _ (floatUnits_nonneg U d hU hd)
    omega
  · have hlo := goInt_floatUnits_lt_iff U d n hU hU2 (by omega) (by omega)
    have h2 : ¬ goInt (floatUnits U d) < n := fun hc => by
      have := hlo.mp hc
      nlinarith
    omega

theorem tdiv_pos_imp_nonneg (d U : ℤ) (hU : 0 < U) (h : 1 ≤ Int.tdiv d U) : 0 ≤ d := by
  by_contra hc
  push_neg at hc
  obtain ⟨m, rfl⟩ : ∃ m : ℤ, d = -m := ⟨-d, by omega⟩
  rw [Int.neg_tdiv] at h
  have : 0 ≤ Int.tdiv m U := Int.tdiv_nonneg (by omega) hU.le
  omega

/-- From `5400` seconds on, every label of `humanDuration` ends in the letter s. -/
theorem humanDuration_last_of_ge (d : ℤ) (hd : 5400000000000 ≤ d) :
    (humanDuration d).data.getLast? = some 's' := by
  rw [humanDuration_eq]
  have b1 : ¬ d < 1000000000 := by omega
  have b2 : ¬ d < 2000000000 := by omega
  have b3 : ¬ d < 60000000000 := by omega
  have b4 : ¬ d < 120000000000 := by omega
  have b5 : ¬ d < 3600000000000 := by omega
  have b6 : ¬ d < 5400000000000 := by omega
  simp only [if_neg b1, if_neg b2, if_neg b3, if_neg b4, if_neg b5, if_neg b6]
  split_ifs <;> rw [String.data_append, List.getLast?_append_of_ne_nil _ (by decide)] <;> rfl

theorem humanDuration_about_a_minute_iff (d : ℤ) :
    humanDuration d = "About a minute" ↔ 60000000000 ≤ d ∧ d < 120000000000 := by
  rcases lt_or_le d 5400000000000 with hlt | hge
  · rw [humanDuration_eq]
    split_ifs with c1 c2 c3 c4 c5
    · exact ⟨fun h => absurd h (by decide), fun h => by omega⟩
    · exact ⟨fun h => absurd h (by decide), fun h => by omega⟩
    · exact ⟨fun h => absurd h (append_ne_of_last _ _ _ (by decide) (by decide)),
        fun h => by omega⟩
    · exact ⟨fun _ => by omega, fun _ => rfl⟩
    · exact ⟨fun h => absurd h (append_ne_of_last _ _ _ (by decide) (by decide)),
        fun h => by omega⟩
    · exact ⟨fun h => absurd h (by decide), fun h => by omega⟩
  · constructor
    · intro h
      have := humanDuration_last_of_ge d hge
      rw [h] at this
      exact absurd this (by decide)
    · intro h
      omega

theorem humanDuration_about_an_hour_iff (d : ℤ) :
    humanDuration d = "About an hour" ↔ 3600000000000 ≤ d ∧ d < 5400000000000 := by
  rcases lt_or_le d 5400000000000 with hlt | hge
  · rw [humanDuration_eq]
    split_ifs with c1 c2 c3 c4 c5
    · exact ⟨fun h => absurd h (by decide), fun h => by omega⟩
    · exact ⟨fun h => absurd h (by decide), fun h => by omega⟩
    · exact ⟨fun h => absurd h (append_ne_of_last _ _ _ (by decide) (by decide)),
        fun h => by omega⟩
    · exact ⟨fun h => absurd h (by decide), fun h => by omega⟩
    · exact ⟨fun h => absurd h (append_ne_of_last _ _ _ (by decide) (by decide)),
        fun h => by omega⟩
    · exact ⟨fun _ => by omega, fun _ => rfl⟩
  · constructor
    · intro h
      have := humanDuration_last_of_ge d hge
      rw [h] at this
      exact absurd this (by decide)
    · intro h
      omega

/-- The rounded hour count of the source between 1 and 1023, from the nanoseconds. -/
theorem hours_eq_of_bounds (d n : ℤ) (hn1 : 1 ≤ n) (hn2 : n ≤ 1023)
    (hlo : n * 3600000000000 - 1800000000000 ≤ d)
    (hhi : d < n * 3600000000000 + 1800000000000) :
    goInt (roundFloat64 (Duration.Hours d + 1 / 2)) = n := by
  have h1 := hours_lt_iff d n hn1 (by omega)
  have h2 := hours_lt_iff d (n + 1) (by omega) (by omega)
  omega

/-- Seconds bucket over the integers. -/
theorem seconds_bucket_int (d : ℤ) (h1 : 1 ≤ Int.tdiv d 1000000000)
    (h59 : Int.tdiv d 1000000000 ≤ 59) :
    humanDuration d =
      if Int.tdiv d 1000000000 = 1 then "1 second"
      else fmtD (Int.tdiv d 1000000000) ++ " seconds" := by
  have hd : (0 : ℤ) ≤ d := tdiv_pos_imp_nonneg d 1000000000 (by norm_num) h1
  have hr0 : 0 ≤ Int.tmod d 1000000000 := Int.tmod_nonneg _ hd
  have hrU : Int.tmod d 1000000000 < 1000000000 := Int.tmod_lt_of_pos d (by norm_num)
  have hdec : (1000000000 : ℤ) * Int.tdiv d 1000000000 + Int.tmod d 1000000000 = d :=
    Int.tdiv_add_tmod d 1000000000
  have hcount : goInt (Duration.Seconds d) = Int.tdiv d 1000000000 := by
    rw [Seconds_eq_floatUnits, Second_eq]
    apply goInt_floatUnits_eq 1000000000 d (by norm_num) (by norm_num) hd
    omega
  rw [humanDuration_eq, hcount]
  generalize Int.tdiv d 1000000000 = n at *
  generalize Int.tmod d 1000000000 = r at *
  have b1 : ¬ d < 1000000000 := by omega
  rw [if_neg b1]
  by_cases hn : n = 1
  · have c2 : d < 2000000000 := by omega
    rw [if_pos c2, if_pos hn]
  · have b2 : ¬ d < 2000000000 := by omega
    have c3 : d < 60000000000 := by omega
    rw [if_neg b2, if_pos c3, if_neg hn]

/-- Minutes bucket over the integers. -/
theorem minutes_bucket_int (d : ℤ) (h2 : 2 ≤ Int.tdiv d 60000000000)
    (h59 : Int.tdiv d 60000000000 ≤ 59) :
    humanDuration d = fmtD (Int.tdiv d 60000000000) ++ " minutes" := by
  have hd : (0 : ℤ) ≤ d := tdiv_pos_imp_nonneg d 60000000000 (by norm_num) (by omega)
  have hr0 : 0 ≤ Int.tmod d 60000000000 := Int.tmod_nonneg _ hd
  have hrU : Int.tmod d 60000000000 < 60000000000 := Int.tmod_lt_of_pos d (by norm_num)
  have hdec : (60000000000 : ℤ) * Int.tdiv d 60000000000 + Int.tmod d 60000000000 = d :=
    Int.tdiv_add_tmod d 60000000000
  have hcount : goInt (Duration.Minutes d) = Int.tdiv d 60000000000 := by
    rw [Minutes_eq_floatUnits, Minute_eq]
    apply goInt_floatUnits_eq 60000000000 d (by norm_num) (by norm_num) hd
    omega
  rw [humanDuration_eq, hcount]
  generalize Int.tdiv d 60000000000 = n at *
  generalize Int.tmod d 60000000000 = r at *
  have b1 : ¬ d < 1000000000 := by omega
  have b2 : ¬ d < 2000000000 := by omega
  have b3 : ¬ d < 60000000000 := by omega
  have b4 : ¬ d < 120000000000 := by omega
  have c5 : d < 3600000000000 := by omega
  rw [if_neg b1, if_neg b2, if_neg b3, if_neg b4, if_pos c5]

/-- C7. For every duration `d` with `0 ≤ d < 1 second` (so that its whole seconds are 0),
`humanDuration d` is exactly "Less than a second". -/
theorem humanDuration_less_than_a_second (d : Duration) (_h0 : 0 ≤ d) (h1 : d < Second) :
    humanDuration d = "Less than a second" := by
  rw [Second_eq] at h1
  rw [humanDuration_eq, if_pos h1]

theorem humanDuration_less_than_a_second_witness :
    (0 : Duration) ≤ 999999999 ∧ (999999999 : Duration) < Second ∧
      humanDuration 999999999 = "Less than a second" :=
  ⟨by decide, by decide, humanDuration_less_than_a_second 999999999 (by decide) (by decide)⟩

/-- C8. Seconds bucket: when the truncated whole-second count `n = d / Second` of `d`
satisfies `1 ≤ n ≤ 59`, the result is "1 second" for `n = 1` and otherwise the decimal
numeral of `n` followed by " seconds". -/
theorem humanDuration_seconds_bucket (d : Duration) (h1 : 1 ≤ Int.tdiv d Second)
    (h59 : Int.tdiv d Second ≤ 59) :
    humanDuration d =
      if Int.tdiv d Second = 1 then "1 second" else fmtD (Int.tdiv d Second) ++ " seconds" := by
  rw [Second_eq] at h1 h59 ⊢
  exact seconds_bucket_int d h1 h59

theorem humanDuration_seconds_bucket_witness :
    humanDuration (1 * Second) = "1 second" ∧ humanDuration (59 * Second) = "59 seconds" :=
  ⟨humanDuration_seconds_bucket (1 * Second) (by decide) (by decide),
    humanDuration_seconds_bucket (59 * Second) (by decide) (by decide)⟩

/-- C9. Minutes bucket: `humanDuration d` is "About a minute" exactly when
`60 seconds ≤ d < 120 seconds`, and when the truncated whole minutes `m = d / Minute`
satisfy `2 ≤ m ≤ 59` the result is the decimal numeral of `m` followed by " minutes". -/
theorem humanDuration_minutes_bucket (d : Duration) :
    (humanDuration d = "About a minute" ↔ 60 * Second ≤ d ∧ d < 120 * Second) ∧
      (2 ≤ Int.tdiv d Minute → Int.tdiv d Minute ≤ 59 →
        humanDuration d = fmtD (Int.tdiv d Minute) ++ " minutes") := by
  rw [Second_eq, Minute_eq]
  exact ⟨by simpa using humanDuration_about_a_minute_iff d, minutes_bucket_int d⟩

theorem humanDuration_minutes_bucket_witness :
    humanDuration (60 * Second) = "About a minute" ∧
      humanDuration (59 * Minute + 59 * Second) = "59 minutes" :=
  ⟨(humanDuration_minutes_bucket (60 * Second)).1.mpr (by decide),
    (humanDuration_minutes_bucket (59 * Minute + 59 * Second)).2 (by decide) (by decide)⟩

/-- C10. Hour boundary: `humanDuration d` is "About an hour" exactly when
`60 minutes ≤ d < 90 minutes`; at exactly 90 minutes the rounded hour count
`int(d.Hours() + 0.5)` is 2 and the result is "2 hours". -/
theorem humanDuration_hour_boundary :
    (∀ d : Duration, humanDuration d = "About an hour" ↔ 60 * Minute ≤ d ∧ d < 90 * Minute) ∧
      goInt (roundFloat64 (Duration.Hours (90 * Minute) + 1 / 2)) = 2 ∧
      humanDuration (90 * Minute) = "2 hours" := by
  have h90 : (90 * Minute : ℤ) = 5400000000000 := by decide
  have hcount : goInt (roundFloat64 (Duration.Hours (90 * Minute) + 1 / 2)) = 2 := by
    rw [h90]
    exact hours_eq_of_bounds 5400000000000 2 (by norm_num) (by norm_num) (by norm_num)
      (by norm_num)
  refine ⟨fun d => ?_, hcount, ?_⟩
  · rw [Minute_eq]
    simpa using humanDuration_about_an_hour_iff d
  · rw [humanDuration_eq, ← h90, hcount]
    decide

/-! ## The timestamp shim -/

/-- The clamped difference has the sign of the exact difference. -/
theorem Until_le_zero_iff (now t : GoTime) : Until now t ≤ 0 ↔ t.nanos - now.nanos ≤ 0 := by
  unfold Until GoTime.Sub
  have h1 : minDuration = -9223372036854775808 := by decide
  have h2 : maxDuration = 9223372036854775807 := by decide
  simp only [h1, h2, Duration]
  generalize t.nanos - now.nanos = x
  split_ifs <;> constructor <;> intro h <;> omega

/-- A difference that fits a `Duration` is returned unchanged. -/
theorem Until_eq_of_fits (now t : GoTime) (h1 : minDuration ≤ t.nanos - now.nanos)
    (h2 : t.nanos - now.nanos ≤ maxDuration) : Until now t = t.nanos - now.nanos := by
  unfold Until GoTime.Sub
  simp only
  rw [if_neg (not_lt.mpr h1), if_neg (not_lt.mpr h2)]

/-- The method never touches the cells that existed before the call: whatever the
bytes are, every old cell (the receiver included) keeps its value. -/
theorem UnmarshalJSON_old_cells (st : Store) (t : Ptr) (b : Bytes) (i : Nat)
    (hi : i < st.length) : (Time.UnmarshalJSON st t b).1.get? i = st.get? i := by
  unfold Time.UnmarshalJSON
  split
  · rfl
  · simp only
    rw [List.get?_eq_getElem?, List.get?_eq_getElem?, List.getElem?_append_left hi]

/-- Had the decoded instant been stored, a reset between one hour and ninety minutes
ahead would be encoded as "about an hour". -/
theorem MarshalJSON_about_an_hour (now : GoTime) (t : Time)
    (h1 : 3600000000000 ≤ t.time.nanos - now.nanos)
    (h2 : t.time.nanos - now.nanos < 5400000000000) :
    Time.MarshalJSON now t = (toBytes "\"about an hour\"", none) := by
  have hmin : minDuration = -9223372036854775808 := by decide
  have hmax : maxDuration = 9223372036854775807 := by decide
  have hu : Until now t.time = t.time.nanos - now.nanos :=
    Until_eq_of_fits now t.time (by rw [hmin]; unfold Duration; omega)
      (by rw [hmax]; unfold Duration; omega)
  unfold Time.MarshalJSON
  simp only
  rw [hu, if_neg (by unfold Duration; omega), (humanDuration_about_an_hour_iff _).mpr ⟨h1, h2⟩]
  decide

/-- The encoder on a `Time` after the clock reading. -/
theorem MarshalJSON_of_pos (now : GoTime) (t : Time) (h : 0 < t.time.nanos - now.nanos) :
    Time.MarshalJSON now t
      = (toBytes ("\"" ++ ToLower (humanDuration (Until now t.time)) ++ "\""), none) := by
  have hpos : ¬ Until now t.time ≤ 0 := fun hc => by
    have := (Until_le_zero_iff now t.time).mp hc
    omega
  unfold Time.MarshalJSON
  simp only
  rw [if_neg hpos]

/-- The encoder on a `Time` between one and two minutes after the clock reading. -/
theorem MarshalJSON_about_a_minute (now : GoTime) (t : Time)
    (h1 : 60000000000 ≤ t.time.nanos - now.nanos)
    (h2 : t.time.nanos - now.nanos < 120000000000) :
    Time.MarshalJSON now t = (toBytes "\"about a minute\"", none) := by
  have hmin : minDuration = -9223372036854775808 := by decide
  have hmax : maxDuration = 9223372036854775807 := by decide
  have hu : Until now t.time = t.time.nanos - now.nanos :=
    Until_eq_of_fits now t.time (by rw [hmin]; unfold Duration; omega)
      (by rw [hmax]; unfold Duration; omega)
  rw [MarshalJSON_of_pos now t (by omega), hu,
    (humanDuration_about_a_minute_iff _).mpr ⟨h1, h2⟩]
  decide

/-- C1 (the code at the failing input). `UnmarshalJSON` on the bytes `1700000000`
returns no error, yet the receiver cell still holds the zero `Time`: the instant of
Unix second 1700000000 only sits in a fresh cell that the local pointer names. -/
theorem UnmarshalJSON_receiver_not_set :
    Time.UnmarshalJSON [⟨GoTime.zero⟩] 0 (toBytes "1700000000")
        = ([⟨GoTime.zero⟩, ⟨GoTime.Unix 1700000000 0⟩], 1, none) ∧
      (Time.UnmarshalJSON [⟨GoTime.zero⟩] 0 (toBytes "1700000000")).1.get? 0
        = some ⟨GoTime.zero⟩ ∧
      (⟨GoTime.zero⟩ : Time) ≠ ⟨GoTime.Unix 1700000000 0⟩ := by
  decide

/-- C2 (the code at the failing input). With the clock at Unix second 1700000000, a
`reset` field decoded from `1700003600` is still the zero `Time` and is encoded as the
empty JSON string, not as "about an hour". -/
theorem decode_then_encode_reset_empty :
    decodeReset (toBytes "1700003600") = (some ⟨GoTime.zero⟩, none) ∧
      Time.MarshalJSON (GoTime.Unix 1700000000 0) ⟨GoTime.zero⟩ = (toBytes "\"\"", none) ∧
      toBytes "\"\"" ≠ toBytes "\"about an hour\"" := by
  decide

/-- C3. `MarshalJSON` returns a nil error for every `Time` and every clock reading, and
whenever `t - now ≤ 0` its bytes are exactly the two characters of the JSON string `""`. -/
theorem MarshalJSON_never_fails (now : GoTime) (t : Time) :
    (Time.MarshalJSON now t).2 = none ∧
      (t.time.nanos - now.nanos ≤ 0 → (Time.MarshalJSON now t).1 = [34, 34]) := by
  unfold Time.MarshalJSON
  simp only
  constructor
  · split_ifs <;> rfl
  · intro h
    rw [if_pos ((Until_le_zero_iff now t.time).mpr h)]
    decide

theorem MarshalJSON_never_fails_witness :
    (Time.MarshalJSON (GoTime.Unix 1700000000 0) ⟨GoTime.Unix 1699996400 0⟩).2 = none ∧
      (Time.MarshalJSON (GoTime.Unix 1700000000 0) ⟨GoTime.Unix 1699996400 0⟩).1 = [34, 34] :=
  ⟨(MarshalJSON_never_fails (GoTime.Unix 1700000000 0) ⟨GoTime.Unix 1699996400 0⟩).1,
    (MarshalJSON_never_fails (GoTime.Unix 1700000000 0) ⟨GoTime.Unix 1699996400 0⟩).2
      (by decide)⟩

/-- C4. For a `Time` after the clock reading (`t - now > 0`), `MarshalJSON` returns exactly
a double quote, the lower-cased text of `humanDuration delta` and a double quote, where
`delta` is the positive duration `time.Until` reports, equal to `t - now` whenever that
fits a `Duration`. -/
theorem MarshalJSON_future (now : GoTime) (t : Time) (h : 0 < t.time.nanos - now.nanos) :
    Time.MarshalJSON now t
        = (toBytes ("\"" ++ ToLower (humanDuration (Until now t.time)) ++ "\""), none) ∧
      0 < Until now t.time ∧
      (t.time.nanos - now.nanos ≤ maxDuration →
        Until now t.time = t.time.nanos - now.nanos) := by
  have hpos : ¬ Until now t.time ≤ 0 := fun hc => by
    have := (Until_le_zero_iff now t.time).mp hc
    omega
  refine ⟨MarshalJSON_of_pos now t h, not_le.mp hpos, fun h2 => ?_⟩
  · have hmin : minDuration = -9223372036854775808 := by decide
    exact Until_eq_of_fits now t.time (by rw [hmin]; unfold Duration; omega) h2

theorem MarshalJSON_future_witness :
    Time.MarshalJSON (GoTime.Unix 1700000000 0) ⟨GoTime.Unix 1700000060 0⟩
      = (toBytes "\"about a minute\"", none) := by
  have h := (MarshalJSON_future (GoTime.Unix 1700000000 0) ⟨GoTime.Unix 1700000060 0⟩
    (by decide)).1
  have hu : Until (GoTime.Unix 1700000000 0) (GoTime.Unix 1700000060 0) = 60000000000 := by
    decide
  rw [h, hu, (humanDuration_about_a_minute_iff 60000000000).mpr (by norm_num)]
  decide

/-- C5 (as stated, refuted). For a `Time` exactly 90 seconds after the clock reading the
encoder does not return the JSON string "90 seconds". -/
theorem MarshalJSON_ninety_seconds_counterexample :
    Time.MarshalJSON (GoTime.Unix 1700000000 0) ⟨GoTime.Unix 1700000090 0⟩
      ≠ (toBytes "\"90 seconds\"", none) := by
  rw [MarshalJSON_about_a_minute (GoTime.Unix 1700000000 0) ⟨GoTime.Unix 1700000090 0⟩
    (by decide) (by decide)]
  decide

/-- C5 (amended). For a `Time` exactly 90 seconds after the clock reading, `MarshalJSON`
returns the JSON string "about a minute": 90 seconds are past the seconds bucket and
their whole minutes are 1. -/
theorem MarshalJSON_ninety_seconds (now : GoTime) (t : Time)
    (h : t.time.nanos - now.nanos = 90 * Second) :
    Time.MarshalJSON now t = (toBytes "\"about a minute\"", none) := by
  have h90 : (90 * Second : ℤ) = 90000000000 := by decide
  rw [h90] at h
  exact MarshalJSON_about_a_minute now t (by omega) (by omega)

theorem MarshalJSON_ninety_seconds_witness :
    Time.MarshalJSON (GoTime.Unix 0 0) ⟨GoTime.Unix 90 0⟩
      = (toBytes "\"about a minute\"", none) :=
  MarshalJSON_ninety_seconds (GoTime.Unix 0 0) ⟨GoTime.Unix 90 0⟩ (by decide)

/-! ## strconv.ParseInt against the specification of the wire format -/

/-- The accumulation step of the digit loop. -/
theorem foldl_digits_ge (ds : Bytes) (n : Nat) :
    n ≤ ds.foldl (fun n c => n * 10 + (c.toNat - 48)) n := by
  induction ds generalizing n with
  | nil => exact le_rfl
  | cons c cs ih =>
    rw [List.foldl_cons]
    have := ih (n * 10 + (c.toNat - 48))
    omega

theorem digitVal_of_digit (c : UInt8) (h : isDigitByte c = true) :
    digitVal c = some (c.toNat - 48) ∧ c.toNat - 48 < 10 := by
  unfold isDigitByte at h
  simp only [Bool.and_eq_true, decide_eq_true_eq] at h
  unfold digitVal
  rw [if_pos h]
  exact ⟨rfl, by omega⟩

theorem digitVal_of_not_digit (c : UInt8) (h : isDigitByte c = false) :
    digitVal c = none ∨ ∃ d, digitVal c = some d ∧ 10 ≤ d := by
  unfold isDigitByte at h
  have h1 : ¬ (48 ≤ c.toNat ∧ c.toNat ≤ 57) := by
    intro hc
    simp [hc.1, hc.2] at h
  unfold digitVal
  rw [if_neg h1]
  split_ifs
  · exact Or.inr ⟨_, rfl, by omega⟩
  · exact Or.inl rfl

/-- The loop of `ParseUint` on a string of digits whose accumulated value fits `uint64`. -/
theorem parseUintLoop_ok (ds : Bytes) (n : Nat)
    (hall : ds.all isDigitByte = true)
    (hfit : ds.foldl (fun n c => n * 10 + (c.toNat - 48)) n ≤ 18446744073709551615) :
    parseUintLoop 10 1844674407370955162 18446744073709551615 ds n
      = (ds.foldl (fun n c => n * 10 + (c.toNat - 48)) n, none) := by
  induction ds generalizing n with
  | nil => rfl
  | cons c cs ih =>
    rw [List.all_cons, Bool.and_eq_true] at hall
    rw [List.foldl_cons] at hfit ⊢
    obtain ⟨hd, hlt⟩ := digitVal_of_digit c hall.1
    have hge := foldl_digits_ge cs (n * 10 + (c.toNat - 48))
    unfold parseUintLoop
    rw [hd]
    simp only
    have h1 : ¬ 10 ≤ c.toNat - 48 := by omega
    have h2 : ¬ 1844674407370955162 ≤ n := by omega
    have e0 : wrapUint64 (n * 10) = n * 10 := by
      unfold wrapUint64
      exact Nat.mod_eq_of_lt (by omega)
    have e1 : wrapUint64 (n * 10 + (c.toNat - 48)) = n * 10 + (c.toNat - 48) := by
      unfold wrapUint64
      exact Nat.mod_eq_of_lt (by omega)
    rw [if_neg h1, if_neg h2, e0, e1, if_neg (by omega)]
    exact ih _ hall.2 hfit

/-- The loop of `ParseUint` fails on every other input: with a syntax error, or with the
range error that carries the largest `uint64`. -/
theorem parseUintLoop_err (ds : Bytes) (n : Nat) (hn : n ≤ 18446744073709551615)
    (hbad : ¬ (ds.all isDigitByte = true ∧
      ds.foldl (fun n c => n * 10 + (c.toNat - 48)) n ≤ 18446744073709551615)) :
    (parseUintLoop 10 1844674407370955162 18446744073709551615 ds n).2
        = some NumError.ErrSyntax ∨
      parseUintLoop 10 1844674407370955162 18446744073709551615 ds n
        = (18446744073709551615, some NumError.ErrRange) := by
  induction ds generalizing n with
  | nil => exact absurd ⟨rfl, hn⟩ hbad
  | cons c cs ih =>
    unfold parseUintLoop
    cases hdig : isDigitByte c with
    | false =>
      rcases digitVal_of_not_digit c hdig with h | ⟨d, h, hd⟩
      · rw [h]
        exact Or.inl rfl
      · rw [h]
        simp only
        rw [if_pos hd]
        exact Or.inl rfl
    | true =>
      obtain ⟨hd, hlt⟩ := digitVal_of_digit c hdig
      rw [hd]
      simp only
      rw [if_neg (by omega)]
      by_cases hcut : 1844674407370955162 ≤ n
      · rw [if_pos hcut]
        exact Or.inr rfl
      · rw [if_neg hcut]
        have e0 : wrapUint64 (n * 10) = n * 10 := by
          unfold wrapUint64
          exact Nat.mod_eq_of_lt (by omega)
        rw [e0]
        by_cases hov : 18446744073709551616 ≤ n * 10 + (c.toNat - 48)
        · have e1 : wrapUint64 (n * 10 + (c.toNat - 48)) < n * 10 := by
            unfold wrapUint64
            omega
          rw [if_pos (Or.inl e1)]
          exact Or.inr rfl
        · have e1 : wrapUint64 (n * 10 + (c.toNat - 48)) = n * 10 + (c.toNat - 48) := by
            unfold wrapUint64
            exact Nat.mod_eq_of_lt (by omega)
          rw [e1, if_neg (by omega)]
          apply ih _ (by omega)
          intro hc
          apply hbad
          rw [List.all_cons, hdig, Bool.true_and, List.foldl_cons]
          exact hc

theorem parseUint_consts :
    maxUint64 / 10 + 1 = 1844674407370955162 ∧ 2 ^ 64 - 1 = 18446744073709551615 := by
  constructor
  · decide
  · norm_num

theorem ParseUint_ok (s : Bytes) (hne : s ≠ []) (hall : s.all isDigitByte = true)
    (hfit : decimalValue s ≤ 18446744073709551615) :
    ParseUint s = (decimalValue s, none) := by
  unfold ParseUint
  rw [if_neg hne, parseUint_consts.1, parseUint_consts.2]
  exact parseUintLoop_ok s 0 hall hfit

theorem ParseUint_err (s : Bytes)
    (hbad : ¬ (s ≠ [] ∧ s.all isDigitByte = true ∧ decimalValue s ≤ 18446744073709551615)) :
    (ParseUint s).2 = some NumError.ErrSyntax ∨
      ParseUint s = (18446744073709551615, some NumError.ErrRange) := by
  unfold ParseUint
  by_cases hne : s = []
  · rw [if_pos hne]
    exact Or.inl rfl
  · rw [if_neg hne, parseUint_consts.1, parseUint_consts.2]
    exact parseUintLoop_err s 0 (by omega) (fun hc => hbad ⟨hne, hc⟩)

/-- The decision of `ParseInt` once the result of `ParseUint` on the digits is known to
be a value without error. -/
theorem ParseInt_of_digits (c : UInt8) (rest : Bytes) (un : Nat)
    (h : ParseUint (if c.toNat = 43 ∨ c.toNat = 45 then rest else c :: rest) = (un, none)) :
    ParseInt (c :: rest) =
      if ¬ (decide (c.toNat = 45) = true) ∧ 2 ^ 63 ≤ un then
        (((2 ^ 63 : Nat) : Int) - 1, some NumError.ErrRange)
      else if decide (c.toNat = 45) = true ∧ 2 ^ 63 < un then
        (-((2 ^ 63 : Nat) : Int), some NumError.ErrRange)
      else
        (if decide (c.toNat = 45) = true then wrapInt64 (-(wrapInt64 un)) else wrapInt64 un,
          none) := by
  unfold ParseInt
  simp only
  rw [h]

/-- Correctness of `ParseInt` against the specification of the literal. -/
theorem ParseInt_spec (b : Bytes) :
    (∀ v, int64Literal b = some v → ParseInt b = (v, none)) ∧
      (int64Literal b = none → (ParseInt b).2 ≠ none) := by
  cases b with
  | nil =>
    constructor
    · intro v h
      simp [int64Literal] at h
    · intro _
      simp [ParseInt]
  | cons c rest =>
    unfold int64Literal
    simp only
    generalize hs1 : (if c.toNat = 43 ∨ c.toNat = 45 then rest else c :: rest) = s1
    by_cases hgood : s1 ≠ [] ∧ s1.all isDigitByte = true ∧ decimalValue s1 ≤ 18446744073709551615
    · have hP := ParseUint_ok s1 hgood.1 hgood.2.1 hgood.2.2
      have hI := ParseInt_of_digits c rest (decimalValue s1) (by rw [hs1]; exact hP)
      rw [hI]
      have hfit := hgood.2.2
      generalize decimalValue s1 = un at *
      by_cases hneg : c.toNat = 45
      · simp only [hneg, decide_True, if_true, not_true_eq_false, false_and, if_false,
          true_and]
        by_cases hr : 2 ^ 63 < un
        · rw [if_pos hr]
          constructor
          · intro v hv
            rw [if_neg (by push_cast; omega)] at hv
            exact absurd hv (by simp)
          · intro _
            simp
        · rw [if_neg hr]
          have hv : wrapInt64 (-(wrapInt64 (un : Int))) = -(un : Int) := by
            unfold wrapInt64
            omega
          rw [hv, if_pos ⟨hgood.1, hgood.2.1, by omega, by omega⟩]
          constructor
          · intro v h
            rw [← Option.some.inj h]
          · intro h
            exact absurd h (by simp)
      · simp only [hneg, decide_False, if_false, Bool.false_eq_true, not_false_eq_true,
          true_and, false_and]
        by_cases hr : 2 ^ 63 ≤ un
        · rw [if_pos hr]
          constructor
          · intro v hv
            rw [if_neg (by push_cast; omega)] at hv
            exact absurd hv (by simp)
          · intro _
            simp
        · rw [if_neg hr]
          have hv : wrapInt64 (un : Int) = (un : Int) := by
            unfold wrapInt64
            omega
          rw [hv, if_pos ⟨hgood.1, hgood.2.1, by omega, by omega⟩]
          constructor
          · intro v h
            rw [← Option.some.inj h]
          · intro h
            exact absurd h (by simp)
    · have hnone : ¬ (s1 ≠ [] ∧ s1.all isDigitByte = true ∧
          -2 ^ 63 ≤ (if c.toNat = 45 then -(decimalValue s1 : Int) else (decimalValue s1 : Int)) ∧
          (if c.toNat = 45 then -(decimalValue s1 : Int) else (decimalValue s1 : Int))
            ≤ 2 ^ 63 - 1) := by
        intro hc
        apply hgood
        refine ⟨hc.1, hc.2.1, ?_⟩
        have h3 := hc.2.2
        split_ifs at h3 <;> omega
      rw [if_neg hnone]
      constructor
      · intro v h
        exact absurd h (by simp)
      · intro _
        have hE := ParseUint_err s1 hgood
        unfold ParseInt
        simp only
        rw [hs1]
        rcases hP : ParseUint s1 with ⟨un, e⟩
        rw [hP] at hE
        rcases hE with h1 | h2
        · simp only at h1
          subst h1
          simp
        · rw [Prod.mk.injEq] at h2
          obtain ⟨rfl, rfl⟩ := h2
          simp only
          by_cases hneg : c.toNat = 45
          · simp [hneg]
          · simp [hneg]

theorem UnmarshalJSON_err (st : Store) (t : Ptr) (b : Bytes) :
    (Time.UnmarshalJSON st t b).2.2 = (ParseInt b).2 := by
  unfold Time.UnmarshalJSON
  split <;> rename_i h <;> rw [h]

/-- C6. `UnmarshalJSON` returns an error exactly when the bytes are not a base-10 signed
64-bit integer literal (an optional sign, then one or more decimal digits, with a value
in `[-2 ^ 63, 2 ^ 63 - 1]`); every such literal is parsed to its value.  The bytes
`not-a-number`, with or without quotes, the empty input and a digit string out of the
`int64` range are rejected; the two ends of the range are accepted. -/
theorem UnmarshalJSON_error_iff :
    (∀ (st : Store) (t : Ptr) (b : Bytes),
        (Time.UnmarshalJSON st t b).2.2 ≠ none ↔ int64Literal b = none) ∧
      (∀ (b : Bytes) (v : Int), int64Literal b = some v → ParseInt b = (v, none)) ∧
      int64Literal (toBytes "not-a-number") = none ∧
      int64Literal (toBytes "\"not-a-number\"") = none ∧
      int64Literal [] = none ∧
      int64Literal (toBytes "9223372036854775808") = none ∧
      int64Literal (toBytes "9223372036854775807") = some 9223372036854775807 ∧
      int64Literal (toBytes "-9223372036854775808") = some (-9223372036854775808) := by
  refine ⟨fun st t b => ?_, fun b v h => (ParseInt_spec b).1 v h, by decide, by decide,
    by decide, by decide, by decide, by decide⟩
  rw [UnmarshalJSON_err]
  constructor
  · intro h
    cases hl : int64Literal b with
    | none => rfl
    | some v =>
      rw [(ParseInt_spec b).1 v hl] at h
      exact absurd rfl h
  · intro h
    exact (ParseInt_spec b).2 h
/-! ## Hours, days, weeks, months and years -/

/-- A whole number of hours is converted exactly. -/
theorem Hours_of_whole (n : ℤ) (h0 : 0 ≤ n) (h1 : n < 2 ^ 52) :
    Duration.Hours (n * 3600000000000) = n := by
  have hq : Int.tdiv (n * 3600000000000) 3600000000000 = n :=
    Int.mul_tdiv_cancel n (by norm_num)
  have hr : Int.tmod (n * 3600000000000) 3600000000000 = 0 := Int.mul_tmod_left n _
  unfold Duration.Hours
  simp only [Hour_eq, hq, hr]
  rw [Int.cast_zero, roundFloat64_zero, zero_div, roundFloat64_zero, add_zero,
    roundFloat64_intCast n (by rw [abs_of_nonneg h0]; omega),
    roundFloat64_intCast n (by rw [abs_of_nonneg h0]; omega)]

/-- A whole number of hours and a half is converted exactly. -/
theorem Hours_of_half (n : ℤ) (h0 : 0 ≤ n) (h1 : n < 2 ^ 51) :
    Duration.Hours (n * 3600000000000 + 1800000000000) = (n : ℚ) + 1 / 2 := by
  have hq : Int.tdiv (n * 3600000000000 + 1800000000000) 3600000000000 = n := by
    rw [Int.tdiv_eq_ediv (by omega) (by norm_num)]
    omega
  have hr : Int.tmod (n * 3600000000000 + 1800000000000) 3600000000000 = 1800000000000 := by
    rw [Int.tmod_eq_emod (by omega) (by norm_num)]
    omega
  have hhalf : roundFloat64 ((1 : ℚ) / 2) = 1 / 2 := by
    have := roundFloat64_dyadic 1 1 (by norm_num) (by omega)
    simpa using this
  have hsum : roundFloat64 ((n : ℚ) + 1 / 2) = (n : ℚ) + 1 / 2 := by
    have := roundFloat64_dyadic (2 * n + 1) 1 (by rw [abs_of_nonneg (by omega)]; omega)
      (by omega)
    have e : ((2 * n + 1 : ℤ) : ℚ) / 2 ^ 1 = (n : ℚ) + 1 / 2 := by
      push_cast
      ring
    rwa [e] at this
  unfold Duration.Hours
  simp only [Hour_eq, hq, hr]
  rw [roundFloat64_intCast n (by rw [abs_of_nonneg h0]; omega),
    roundFloat64_intCast 1800000000000 (by norm_num)]
  have e2 : ((1800000000000 : ℤ) : ℚ) / (60 * 60 * 1000000000) = 1 / 2 := by norm_num
  rw [e2, hhalf, hsum]

theorem roundedHours_of_whole (n : ℤ) (h0 : 0 ≤ n) (h1 : n < 2 ^ 51) :
    roundedHours (n * 3600000000000) = n := by
  unfold roundedHours
  rw [Hours_of_whole n h0 (by omega)]
  have hsum : roundFloat64 ((n : ℚ) + 1 / 2) = (n : ℚ) + 1 / 2 := by
    have := roundFloat64_dyadic (2 * n + 1) 1 (by rw [abs_of_nonneg (by omega)]; omega)
      (by omega)
    have e : ((2 * n + 1 : ℤ) : ℚ) / 2 ^ 1 = (n : ℚ) + 1 / 2 := by
      push_cast
      ring
    rwa [e] at this
  rw [hsum]
  unfold goInt
  have hn : (0 : ℚ) ≤ (n : ℚ) := by exact_mod_cast h0
  rw [if_pos (by linarith)]
  rw [Int.floor_eq_iff]
  constructor <;> linarith

theorem roundedHours_of_half (n : ℤ) (h0 : 0 ≤ n) (h1 : n < 2 ^ 51) :
    roundedHours (n * 3600000000000 + 1800000000000) = n + 1 := by
  unfold roundedHours
  rw [Hours_of_half n h0 h1]
  have e : (n : ℚ) + 1 / 2 + 1 / 2 = ((n + 1 : ℤ) : ℚ) := by
    push_cast
    ring
  rw [e, roundFloat64_intCast (n + 1) (by rw [abs_of_nonneg (by omega)]; omega)]
  unfold goInt
  have hn : (0 : ℚ) ≤ ((n + 1 : ℤ) : ℚ) := by exact_mod_cast (by omega : (0 : ℤ) ≤ n + 1)
  rw [if_pos hn, Int.floor_intCast]

theorem goInt_Hours_of_half (n : ℤ) (h0 : 0 ≤ n) (h1 : n < 2 ^ 51) :
    goInt (Duration.Hours (n * 3600000000000 + 1800000000000)) = n := by
  rw [Hours_of_half n h0 h1]
  unfold goInt
  have hn : (0 : ℚ) ≤ (n : ℚ) := by exact_mod_cast h0
  rw [if_pos (by linarith)]
  rw [Int.floor_eq_iff]
  constructor <;> linarith

theorem goInt_Hours_of_whole (n : ℤ) (h0 : 0 ≤ n) (h1 : n < 2 ^ 51) :
    goInt (Duration.Hours (n * 3600000000000)) = n := by
  rw [Hours_of_whole n h0 (by omega)]
  unfold goInt
  have hn : (0 : ℚ) ≤ (n : ℚ) := by exact_mod_cast h0
  rw [if_pos hn, Int.floor_intCast]

/-- A rounded hour count of at least two is only reached from ninety minutes on. -/
theorem ge_of_two_le_roundedHours (d : ℤ) (h : 2 ≤ roundedHours d) : 5400000000000 ≤ d := by
  have h2 := hours_lt_iff d 2 (by norm_num) (by norm_num)
  unfold roundedHours at h
  by_contra hc
  have := h2.mpr (by omega)
  omega

/-- From ninety minutes on, `humanDuration` is decided by the rounded hour count alone. -/
theorem humanDuration_tail (d : ℤ) (hd : 5400000000000 ≤ d) :
    humanDuration d =
      if roundedHours d < 48 then fmtD (roundedHours d) ++ " hours"
      else if roundedHours d < 24 * 7 * 2 then fmtD (Int.tdiv (roundedHours d) 24) ++ " days"
      else if roundedHours d < 24 * 30 * 2 then
        fmtD (Int.tdiv (Int.tdiv (roundedHours d) 24) 7) ++ " weeks"
      else if roundedHours d < 24 * 365 * 2 then
        fmtD (Int.tdiv (Int.tdiv (roundedHours d) 24) 30) ++ " months"
      else fmtD (Int.tdiv (Int.tdiv (goInt (Duration.Hours d)) 24) 365) ++ " years" := by
  rw [humanDuration_eq]
  have b1 : ¬ d < 1000000000 := by omega
  have b2 : ¬ d < 2000000000 := by omega
  have b3 : ¬ d < 60000000000 := by omega
  have b4 : ¬ d < 120000000000 := by omega
  have b5 : ¬ d < 3600000000000 := by omega
  have b6 : ¬ d < 5400000000000 := by omega
  simp only [if_neg b1, if_neg b2, if_neg b3, if_neg b4, if_neg b5, if_neg b6]
  rfl

/-- Hours and days buckets over the integers. -/
theorem hours_days_int (d : ℤ) :
    (2 ≤ roundedHours d → roundedHours d < 48 →
        humanDuration d = fmtD (roundedHours d) ++ " hours") ∧
      (48 ≤ roundedHours d → roundedHours d < 24 * 7 * 2 →
        humanDuration d = fmtD (Int.tdiv (roundedHours d) 24) ++ " days") := by
  constructor
  · intro h2 h48
    rw [humanDuration_tail d (ge_of_two_le_roundedHours d h2), if_pos h48]
  · intro h48 h336
    rw [humanDuration_tail d (ge_of_two_le_roundedHours d (by omega)), if_neg (by omega),
      if_pos h336]

/-- Weeks, months and years buckets over the integers. -/
theorem weeks_months_years_int (d : ℤ) :
    (24 * 7 * 2 ≤ roundedHours d → roundedHours d < 24 * 30 * 2 →
        humanDuration d = fmtD (Int.tdiv (Int.tdiv (roundedHours d) 24) 7) ++ " weeks") ∧
      (24 * 30 * 2 ≤ roundedHours d → roundedHours d < 24 * 365 * 2 →
        humanDuration d = fmtD (Int.tdiv (Int.tdiv (roundedHours d) 24) 30) ++ " months") ∧
      (24 * 365 * 2 ≤ roundedHours d →
        humanDuration d
          = fmtD (Int.tdiv (Int.tdiv (goInt (Duration.Hours d)) 24) 365) ++ " years") := by
  refine ⟨fun h1 h2 => ?_, fun h1 h2 => ?_, fun h1 => ?_⟩
  · rw [humanDuration_tail d (ge_of_two_le_roundedHours d (by omega)), if_neg (by omega),
      if_neg (by omega), if_pos h2]
  · rw [humanDuration_tail d (ge_of_two_le_roundedHours d (by omega)), if_neg (by omega),
      if_neg (by omega), if_neg (by omega), if_pos h2]
  · rw [humanDuration_tail d (ge_of_two_le_roundedHours d (by omega)), if_neg (by omega),
      if_neg (by omega), if_neg (by omega), if_neg (by omega)]

/-- The hours bucket in nanoseconds: the count is the hours rounded half up. -/
theorem hours_rounded_int (d : ℤ) (h1 : 5400000000000 ≤ d) (h2 : d < 171000000000000) :
    humanDuration d = fmtD (Int.tdiv (d + 1800000000000) 3600000000000) ++ " hours" := by
  rw [Int.tdiv_eq_ediv (by omega) (by norm_num)]
  have hn : roundedHours d = (d + 1800000000000) / 3600000000000 :=
    hours_eq_of_bounds d _ (by omega) (by omega) (by omega) (by omega)
  rw [humanDuration_tail d h1, hn, if_pos (by omega)]

/-- C11. Hours and days buckets, with `h = int(d.Hours() + 0.5)`: for every duration of
at least 60 minutes, `2 ≤ h < 48` gives the decimal numeral of `h` followed by " hours"
and `48 ≤ h < 24*7*2` gives the numeral of `h / 24` (truncating) followed by " days". -/
theorem humanDuration_hours_days_bucket (d : Duration) (_hd : 60 * Minute ≤ d) :
    (2 ≤ roundedHours d → roundedHours d < 48 →
        humanDuration d = fmtD (roundedHours d) ++ " hours") ∧
      (48 ≤ roundedHours d → roundedHours d < 24 * 7 * 2 →
        humanDuration d = fmtD (Int.tdiv (roundedHours d) 24) ++ " days") :=
  hours_days_int d

theorem humanDuration_hours_days_bucket_witness :
    humanDuration (47 * Hour) = "47 hours" ∧ humanDuration (48 * Hour) = "2 days" := by
  have e47 : (47 * Hour : ℤ) = 47 * 3600000000000 := by decide
  have e48 : (48 * Hour : ℤ) = 48 * 3600000000000 := by decide
  have h47 : roundedHours (47 * Hour) = 47 := by
    rw [e47]
    exact roundedHours_of_whole 47 (by norm_num) (by norm_num)
  have h48 : roundedHours (48 * Hour) = 48 := by
    rw [e48]
    exact roundedHours_of_whole 48 (by norm_num) (by norm_num)
  have a := (humanDuration_hours_days_bucket (47 * Hour) (by decide)).1
    (by omega) (by omega)
  have b := (humanDuration_hours_days_bucket (48 * Hour) (by decide)).2
    (by omega) (by omega)
  rw [h47] at a
  rw [h48] at b
  exact ⟨a, b⟩

/-- C12 (as stated, refuted). Two and a half hours lie between 90 minutes and 48 hours, yet
the label is not the truncated hour count 2 followed by " hours": it is "3 hours". -/
theorem humanDuration_hours_truncated_counterexample :
    90 * Minute ≤ 2 * Hour + 30 * Minute ∧ 2 * Hour + 30 * Minute < 48 * Hour ∧
      Int.tdiv (2 * Hour + 30 * Minute) Hour = 2 ∧
      humanDuration (2 * Hour + 30 * Minute) = "3 hours" ∧
      humanDuration (2 * Hour + 30 * Minute)
        ≠ fmtD (Int.tdiv (2 * Hour + 30 * Minute) Hour) ++ " hours" := by
  have e : (2 * Hour + 30 * Minute : ℤ) = 9000000000000 := by decide
  have h : humanDuration (2 * Hour + 30 * Minute) = "3 hours" := by
    rw [e, hours_rounded_int 9000000000000 (by norm_num) (by norm_num)]
    decide
  refine ⟨by decide, by decide, by decide, h, ?_⟩
  rw [h]
  decide

/-- C12 (amended). For every duration `d` with `90 minutes ≤ d` and `d < 47.5 hours` the
label is the numeral of `n` followed by " hours", where `n` is the hour count rounded half
up, the integer part of `hours(d) + 0.5`. -/
theorem humanDuration_hours_rounded (d : Duration) (h1 : 90 * Minute ≤ d)
    (h2 : d < 47 * Hour + 30 * Minute) :
    humanDuration d = fmtD (Int.tdiv (d + 30 * Minute) Hour) ++ " hours" := by
  have e1 : (90 * Minute : ℤ) = 5400000000000 := by decide
  have e2 : (47 * Hour + 30 * Minute : ℤ) = 171000000000000 := by decide
  have e3 : (30 * Minute : ℤ) = 1800000000000 := by decide
  rw [e1] at h1
  rw [e2] at h2
  rw [e3, Hour_eq]
  exact hours_rounded_int d h1 h2

theorem humanDuration_hours_rounded_witness :
    humanDuration (2 * Hour + 30 * Minute) = "3 hours" ∧
      humanDuration (47 * Hour + 29 * Minute) = "47 hours" :=
  ⟨humanDuration_hours_rounded (2 * Hour + 30 * Minute) (by decide) (by decide),
    humanDuration_hours_rounded (47 * Hour + 29 * Minute) (by decide) (by decide)⟩

/-- C13. Weeks, months and years buckets, with `h = int(d.Hours() + 0.5)`: for every
duration, `24*7*2 ≤ h < 24*30*2` gives "<h/24/7> weeks", `24*30*2 ≤ h < 24*365*2` gives
"<h/24/30> months", and `h ≥ 24*365*2` gives "<n> years" where `n = hours/24/365` is taken
from the truncated hours `int(d.Hours())`; the divisions truncate and the counts are
decimal numerals. -/
theorem humanDuration_weeks_months_years (d : Duration) :
    (24 * 7 * 2 ≤ roundedHours d → roundedHours d < 24 * 30 * 2 →
        humanDuration d = fmtD (Int.tdiv (Int.tdiv (roundedHours d) 24) 7) ++ " weeks") ∧
      (24 * 30 * 2 ≤ roundedHours d → roundedHours d < 24 * 365 * 2 →
        humanDuration d = fmtD (Int.tdiv (Int.tdiv (roundedHours d) 24) 30) ++ " months") ∧
      (24 * 365 * 2 ≤ roundedHours d →
        humanDuration d
          = fmtD (Int.tdiv (Int.tdiv (goInt (Duration.Hours d)) 24) 365) ++ " years") :=
  weeks_months_years_int d

theorem humanDuration_weeks_months_years_witness :
    humanDuration (336 * Hour) = "2 weeks" ∧ humanDuration (1440 * Hour) = "2 months" ∧
      humanDuration (17520 * Hour) = "2 years" := by
  have e1 : (336 * Hour : ℤ) = 336 * 3600000000000 := by decide
  have e2 : (1440 * Hour : ℤ) = 1440 * 3600000000000 := by decide
  have e3 : (17520 * Hour : ℤ) = 17520 * 3600000000000 := by decide
  have h1 : roundedHours (336 * Hour) = 336 := by
    rw [e1]
    exact roundedHours_of_whole 336 (by norm_num) (by norm_num)
  have h2 : roundedHours (1440 * Hour) = 1440 := by
    rw [e2]
    exact roundedHours_of_whole 1440 (by norm_num) (by norm_num)
  have h3 : roundedHours (17520 * Hour) = 17520 := by
    rw [e3]
    exact roundedHours_of_whole 17520 (by norm_num) (by norm_num)
  have g3 : goInt (Duration.Hours (17520 * Hour)) = 17520 := by
    rw [e3]
    exact goInt_Hours_of_whole 17520 (by norm_num) (by norm_num)
  have a := (humanDuration_weeks_months_years (336 * Hour)).1
    (by omega) (by omega)
  have b := (humanDuration_weeks_months_years (1440 * Hour)).2.1
    (by omega) (by omega)
  have c := (humanDuration_weeks_months_years (17520 * Hour)).2.2 (by omega)
  rw [h1] at a
  rw [h2] at b
  rw [g3] at c
  exact ⟨a, b, c⟩

/-- C18 (the code at the failing input). At 17519 hours and 30 minutes the rounded hour
count is `24*365*2`, so the final branch is taken, but the count is computed from the
truncated hours 17519 and the label is "1 years". -/
theorem humanDuration_one_years :
    roundedHours (17519 * Hour + 30 * Minute) = 24 * 365 * 2 ∧
      goInt (Duration.Hours (17519 * Hour + 30 * Minute)) = 17519 ∧
      humanDuration (17519 * Hour + 30 * Minute) = "1 years" := by
  have e : (17519 * Hour + 30 * Minute : ℤ) = 17519 * 3600000000000 + 1800000000000 := by
    decide
  have h : roundedHours (17519 * Hour + 30 * Minute) = 17520 := by
    rw [e]
    exact roundedHours_of_half 17519 (by norm_num) (by norm_num)
  have g : goInt (Duration.Hours (17519 * Hour + 30 * Minute)) = 17519 := by
    rw [e]
    exact goInt_Hours_of_half 17519 (by norm_num) (by norm_num)
  refine ⟨by omega, g, ?_⟩
  rw [(weeks_months_years_int (17519 * Hour + 30 * Minute)).2.2 (by omega), g]
  decide

/-! ## Decimal numerals -/

theorem digitChar_spec (k : Nat) (hk : k < 10) :
    Nat.digitChar k ∈ digitChars ∧ (Nat.digitChar k).toNat - 48 = k := by
  interval_cases k <;> decide

theorem charsValue_append_singleton (cs : List Char) (c : Char) :
    charsValue (cs ++ [c]) = charsValue cs * 10 + (c.toNat - 48) := by
  unfold charsValue
  rw [List.foldl_append]
  rfl

/-- The digit loop behind `Nat.repr`, with enough fuel: it puts a non-empty run of decimal
digits that write `n` in front of the accumulator. -/
theorem toDigitsCore_run (fuel : Nat) :
    ∀ (n : Nat) (acc : List Char), n < fuel →
      ∃ run : List Char, Nat.toDigitsCore 10 fuel n acc = run ++ acc ∧ run ≠ [] ∧
        (∀ c ∈ run, c ∈ digitChars) ∧ charsValue run = n := by
  induction fuel with
  | zero =>
    intro n acc h
    exact absurd h (Nat.not_lt_zero n)
  | succ fuel ih =>
    intro n acc hn
    obtain ⟨hmem, hval⟩ := digitChar_spec (n % 10) (Nat.mod_lt n (by norm_num))
    unfold Nat.toDigitsCore
    simp only
    by_cases hz : n / 10 = 0
    · rw [if_pos hz]
      refine ⟨[Nat.digitChar (n % 10)], rfl, by simp, ?_, ?_⟩
      · intro c hc
        rw [List.mem_singleton] at hc
        rw [hc]
        exact hmem
      · have := charsValue_append_singleton [] (Nat.digitChar (n % 10))
        rw [List.nil_append] at this
        rw [this, hval]
        unfold charsValue
        simp only [List.foldl_nil]
        omega
    · rw [if_neg hz]
      obtain ⟨run, hrun, hne, hall, hv⟩ := ih (n / 10) (Nat.digitChar (n % 10) :: acc) (by omega)
      refine ⟨run ++ [Nat.digitChar (n % 10)], ?_, by simp, ?_, ?_⟩
      · rw [hrun, List.append_assoc]
        rfl
      · intro c hc
        rcases List.mem_append.mp hc with h | h
        · exact hall c h
        · rw [List.mem_singleton] at h
          rw [h]
          exact hmem
      · rw [charsValue_append_singleton, hv, hval]
        omega

/-- The numeral of a natural number: a non-empty run of digits that writes it. -/
theorem toDigits_spec (n : Nat) :
    Nat.toDigits 10 n ≠ [] ∧ (∀ c ∈ Nat.toDigits 10 n, c ∈ digitChars) ∧
      charsValue (Nat.toDigits 10 n) = n := by
  obtain ⟨run, hrun, hne, hall, hv⟩ := toDigitsCore_run (n + 1) n [] (by omega)
  unfold Nat.toDigits
  rw [hrun, List.append_nil]
  exact ⟨hne, hall, hv⟩

theorem fmtD_ofNat (m : Nat) : (fmtD (m : Int)).data = Nat.toDigits 10 m := rfl

theorem fmtD_negSucc (m : Nat) :
    (fmtD (Int.negSucc m)).data = '-' :: Nat.toDigits 10 (m + 1) := rfl

/-- Reading the numeral that `%d` prints gives the integer back. -/
theorem numeralValue_fmtD (n : Int) : numeralValue (fmtD n).data = n := by
  cases n with
  | ofNat m =>
    obtain ⟨hne, hall, hv⟩ := toDigits_spec m
    have hd : (fmtD (Int.ofNat m)).data = Nat.toDigits 10 m := rfl
    rw [hd]
    cases hds : Nat.toDigits 10 m with
    | nil => exact absurd hds hne
    | cons c cs =>
      have hc : c ∈ digitChars := hall c (by rw [hds]; exact List.mem_cons_self c cs)
      have hcne : c ≠ '-' := by
        intro h
        rw [h] at hc
        exact absurd hc (by decide)
      unfold numeralValue
      split
      · rename_i r heq
        exact absurd (List.cons.inj heq).1 hcne
      · rw [← hds, hv]
        rfl
  | negSucc m =>
    obtain ⟨hne, hall, hv⟩ := toDigits_spec (m + 1)
    rw [fmtD_negSucc]
    unfold numeralValue
    simp only
    rw [hv]
    rfl

theorem fmtD_injective (a b : Int) (h : fmtD a = fmtD b) : a = b := by
  have := congrArg (fun s => numeralValue s.data) h
  simp only [numeralValue_fmtD] at this
  exact this

/-- The numeral of a non-negative integer consists of decimal digits. -/
theorem fmtD_digits (n : Int) (hn : 0 ≤ n) : ∀ c ∈ (fmtD n).data, c ∈ digitChars := by
  obtain ⟨m, rfl⟩ := Int.eq_ofNat_of_zero_le hn
  rw [fmtD_ofNat]
  exact (toDigits_spec m).2.1

/-- The numeral of any integer consists of decimal digits and at most a minus sign. -/
theorem fmtD_chars (n : Int) : ∀ c ∈ (fmtD n).data, c ∈ '-' :: digitChars := by
  cases n with
  | ofNat m =>
    intro c hc
    exact List.mem_cons_of_mem _ ((toDigits_spec m).2.1 c hc)
  | negSucc m =>
    intro c hc
    rw [fmtD_negSucc] at hc
    rcases List.mem_cons.mp hc with h | h
    · rw [h]
      exact List.mem_cons_self _ _
    · exact List.mem_cons_of_mem _ ((toDigits_spec (m + 1)).2.1 c h)

/-! ## The shape of every label -/

theorem lastThree_append (a s : String) (hs : 3 ≤ s.data.length) :
    lastThree (a ++ s) = lastThree s := by
  unfold lastThree
  rw [String.data_append, List.reverse_append,
    List.take_append_of_le_length (by rw [List.length_reverse]; exact hs)]

theorem string_append_right_cancel (a b s : String) (h : a ++ s = b ++ s) : a = b := by
  have h1 := congrArg String.data h
  rw [String.data_append, String.data_append] at h1
  exact String.ext (List.append_cancel_right h1)

theorem tdiv_tdiv_eq (h a b : ℤ) (h0 : 0 ≤ h) (ha : 0 < a) (hb : 0 < b) :
    Int.tdiv (Int.tdiv h a) b = h / a / b := by
  rw [Int.tdiv_eq_ediv h0 ha.le, Int.tdiv_eq_ediv (Int.ediv_nonneg h0 ha.le) hb.le]

/-- Every result of `humanDuration` is one of its eleven labels, with the count in the
range that the tests of its branch leave. -/
theorem humanDuration_cases (d : ℤ) :
    humanDuration d = "Less than a second" ∨ humanDuration d = "1 second" ∨
      (∃ n : ℤ, 2 ≤ n ∧ n ≤ 59 ∧ humanDuration d = fmtD n ++ " seconds") ∨
      humanDuration d = "About a minute" ∨
      (∃ n : ℤ, 2 ≤ n ∧ n ≤ 59 ∧ humanDuration d = fmtD n ++ " minutes") ∨
      humanDuration d = "About an hour" ∨
      (∃ n : ℤ, 2 ≤ n ∧ n ≤ 47 ∧ humanDuration d = fmtD n ++ " hours") ∨
      (∃ n : ℤ, 2 ≤ n ∧ n ≤ 13 ∧ humanDuration d = fmtD n ++ " days") ∨
      (∃ n : ℤ, 2 ≤ n ∧ n ≤ 8 ∧ humanDuration d = fmtD n ++ " weeks") ∨
      (∃ n : ℤ, 2 ≤ n ∧ n ≤ 24 ∧ humanDuration d = fmtD n ++ " months") ∨
      (∃ n : ℤ, 0 ≤ n ∧ humanDuration d = fmtD n ++ " years") := by
  rcases lt_or_le d 5400000000000 with hlt | hge
  · have hs2 := seconds_lt_iff d 2 (by norm_num) (by norm_num)
    have hs60 := seconds_lt_iff d 60 (by norm_num) (by norm_num)
    have hm2 := minutes_lt_iff d 2 (by norm_num) (by norm_num)
    have hm60 := minutes_lt_iff d 60 (by norm_num) (by norm_num)
    rw [humanDuration_eq]
    split_ifs with c1 c2 c3 c4 c5
    · exact Or.inl rfl
    · exact Or.inr (Or.inl rfl)
    · exact Or.inr (Or.inr (Or.inl ⟨_, by omega, by omega, rfl⟩))
    · exact Or.inr (Or.inr (Or.inr (Or.inl rfl)))
    · exact Or.inr (Or.inr (Or.inr (Or.inr (Or.inl ⟨_, by omega, by omega, rfl⟩))))
    · exact Or.inr (Or.inr (Or.inr (Or.inr (Or.inr (Or.inl rfl)))))
  · have hh2 := hours_lt_iff d 2 (by norm_num) (by norm_num)
    have h2 : 2 ≤ roundedHours d := by
      unfold roundedHours
      omega
    have h0 : 0 ≤ goInt (Duration.Hours d) := by
      rw [Hours_eq_floatUnits]
      exact goInt_nonneg _ (floatUnits_nonneg Hour d (by decide) (by omega))
    rw [humanDuration_tail d hge]
    right; right; right; right; right; right
    split_ifs with c1 c2 c3 c4
    · exact Or.inl ⟨_, h2, by omega, rfl⟩
    · refine Or.inr (Or.inl ⟨_, ?_, ?_, rfl⟩) <;>
        rw [Int.tdiv_eq_ediv (by omega) (by norm_num)] <;> omega
    · refine Or.inr (Or.inr (Or.inl ⟨_, ?_, ?_, rfl⟩)) <;>
        rw [tdiv_tdiv_eq _ _ _ (by omega) (by norm_num) (by norm_num)] <;> omega
    · refine Or.inr (Or.inr (Or.inr (Or.inl ⟨_, ?_, ?_, rfl⟩))) <;>
        rw [tdiv_tdiv_eq _ _ _ (by omega) (by norm_num) (by norm_num)] <;> omega
    · refine Or.inr (Or.inr (Or.inr (Or.inr ⟨_, ?_, rfl⟩)))
      rw [tdiv_tdiv_eq _ _ _ h0 (by norm_num) (by norm_num)]
      exact Int.ediv_nonneg (Int.ediv_nonneg h0 (by norm_num)) (by norm_num)

/-- A label that is a numeral followed by one of the six plural unit names has its count
in the range of that unit. -/
theorem count_ranges_int (d n : ℤ) :
    (humanDuration d = fmtD n ++ " seconds" → 2 ≤ n ∧ n ≤ 59) ∧
      (humanDuration d = fmtD n ++ " minutes" → 2 ≤ n ∧ n ≤ 59) ∧
      (humanDuration d = fmtD n ++ " hours" → 2 ≤ n ∧ n ≤ 47) ∧
      (humanDuration d = fmtD n ++ " days" → 2 ≤ n ∧ n ≤ 13) ∧
      (humanDuration d = fmtD n ++ " weeks" → 2 ≤ n ∧ n ≤ 8) ∧
      (humanDuration d = fmtD n ++ " months" → 2 ≤ n ∧ n ≤ 24) := by
  refine ⟨?_, ?_, ?_, ?_, ?_, ?_⟩ <;> intro heq <;>
    have hk := congrArg lastThree heq <;>
    rw [lastThree_append _ _ (by decide)] at hk <;>
    rcases humanDuration_cases d with h | h | ⟨m, h1, h2, h⟩ | h | ⟨m, h1, h2, h⟩ | h |
      ⟨m, h1, h2, h⟩ | ⟨m, h1, h2, h⟩ | ⟨m, h1, h2, h⟩ | ⟨m, h1, h2, h⟩ | ⟨m, h1, h⟩ <;>
    first
    | (rw [h] at hk
       exact absurd hk (by decide))
    | (rw [h, lastThree_append _ _ (by decide)] at hk
       exact absurd hk (by decide))
    | (have e := fmtD_injective n m (string_append_right_cancel _ _ _ (heq.symm.trans h))
       omega)

/-- C17. Count ranges of `humanDuration`: whenever the result is a numeral `n` followed by
" seconds" then `2 ≤ n ≤ 59`; by " minutes" then `2 ≤ n ≤ 59`; by " hours" then
`2 ≤ n ≤ 47`; by " days" then `2 ≤ n ≤ 13`; by " weeks" then `2 ≤ n ≤ 8`; by " months"
then `2 ≤ n ≤ 24`. -/
theorem humanDuration_count_ranges (d : Duration) (n : Int) :
    (humanDuration d = fmtD n ++ " seconds" → 2 ≤ n ∧ n ≤ 59) ∧
      (humanDuration d = fmtD n ++ " minutes" → 2 ≤ n ∧ n ≤ 59) ∧
      (humanDuration d = fmtD n ++ " hours" → 2 ≤ n ∧ n ≤ 47) ∧
      (humanDuration d = fmtD n ++ " days" → 2 ≤ n ∧ n ≤ 13) ∧
      (humanDuration d = fmtD n ++ " weeks" → 2 ≤ n ∧ n ≤ 8) ∧
      (humanDuration d = fmtD n ++ " months" → 2 ≤ n ∧ n ≤ 24) :=
  count_ranges_int d n

theorem humanDuration_count_ranges_witness :
    humanDuration (13 * 24 * Hour) = fmtD 13 ++ " days" ∧ (2 : Int) ≤ 13 ∧ (13 : Int) ≤ 13 := by
  have e : (13 * 24 * Hour : ℤ) = 312 * 3600000000000 := by decide
  have h : roundedHours (13 * 24 * Hour) = 312 := by
    rw [e]
    exact roundedHours_of_whole 312 (by norm_num) (by norm_num)
  have hd : humanDuration (13 * 24 * Hour) = fmtD 13 ++ " days" := by
    rw [(hours_days_int (13 * 24 * Hour)).2 (by omega) (by omega), h]
    rfl
  exact ⟨hd, (humanDuration_count_ranges (13 * 24 * Hour) 13).2.2.2.1 hd⟩

/-! ## The failure mapping of the handler -/

/-- A `reset` value that is not an integer literal makes the decoding of the body fail. -/
theorem decodeResets_err (resets : List (Bucket × Bytes)) (st : Store) (k : Bucket) (b : Bytes)
    (hmem : (k, b) ∈ resets) (hbad : int64Literal b = none) :
    ∃ e c, (decodeResets resets st).2 = some (HandlerError.num e c) := by
  induction resets generalizing st with
  | nil => exact absurd hmem (List.not_mem_nil _)
  | cons head rest ih =>
    obtain ⟨k1, b1⟩ := head
    unfold decodeResets
    rcases hU : Time.UnmarshalJSON st k1.addr b1 with ⟨st1, p, e⟩
    have herr : e = (ParseInt b1).2 := by
      have := UnmarshalJSON_err st k1.addr b1
      rw [hU] at this
      exact this
    cases e with
    | some e1 => exact ⟨e1, b1, rfl⟩
    | none =>
      simp only
      rcases List.mem_cons.mp hmem with h | h
      · have hkb : b = b1 := (Prod.mk.inj h).2
        rw [hkb] at hbad
        exact absurd herr.symm ((ParseInt_spec b1).2 hbad)
      · exact ih st1 h

theorem jsonDecode_object_err (limit remaining : Bucket → Int) (resets : List (Bucket × Bytes))
    (k : Bucket) (b : Bytes) (hmem : (k, b) ∈ resets) (hbad : int64Literal b = none) :
    ∃ e c, (jsonDecode (Body.object limit remaining resets)).2 = some (HandlerError.num e c) := by
  unfold jsonDecode
  exact decodeResets_err resets _ k b hmem hbad

/-- C14. Failure mapping of `Handler` as a function of the outcomes of its stages: when
request construction, transport, JSON decoding or JSON encoding fails with an error `e`,
the handler answers with status 500 and the plain-text body "<stage> failed: " followed by
the text of `e` and a line break, and nothing else is written.  In particular, with the
decoder of `encoding/json`, an upstream body that is missing, is not valid JSON, or
carries a `reset` value that is not an integer literal gives status 500 with a body that
begins with "decoding json failed: ". -/
theorem Handler_failure_mapping (errText : HandlerError → Bytes) (verbs : Bytes → Bytes)
    (decode : Body → Response × Option HandlerError)
    (marshalIndent : Response → Bytes × Option HandlerError) :
    (∀ e doRequest, Handler errText verbs (some e) doRequest decode marshalIndent
        = ⟨500, some "text/plain; charset=utf-8",
            toBytes "creating request failed: " ++ errText e ++ [10]⟩) ∧
      (∀ body e, Handler errText verbs none (body, some e) decode marshalIndent
        = ⟨500, some "text/plain; charset=utf-8",
            toBytes "doing request failed: " ++ errText e ++ [10]⟩) ∧
      (∀ body s e, decode body = (s, some e) →
        Handler errText verbs none (body, none) decode marshalIndent
          = ⟨500, some "text/plain; charset=utf-8",
              toBytes "decoding json failed: " ++ errText e ++ [10]⟩) ∧
      (∀ body s json e, decode body = (s, none) → marshalIndent s = (json, some e) →
        Handler errText verbs none (body, none) decode marshalIndent
          = ⟨500, some "text/plain; charset=utf-8",
              toBytes "encoding json failed: " ++ errText e ++ [10]⟩) ∧
      (∀ body,
        (body = Body.missing ∨ (∃ err, body = Body.invalid err) ∨
          (∃ limit remaining resets k b, body = Body.object limit remaining resets ∧
            (k, b) ∈ resets ∧ int64Literal b = none)) →
        ∃ e, Handler errText verbs none (body, none) jsonDecode marshalIndent
          = ⟨500, some "text/plain; charset=utf-8",
              toBytes "decoding json failed: " ++ errText e ++ [10]⟩) := by
  have hdec : ∀ (dec : Body → Response × Option HandlerError) body s e,
      dec body = (s, some e) →
      Handler errText verbs none (body, none) dec marshalIndent
        = ⟨500, some "text/plain; charset=utf-8",
            toBytes "decoding json failed: " ++ errText e ++ [10]⟩ := by
    intro dec body s e h
    unfold Handler
    simp only [h]
    rfl
  refine ⟨fun e doRequest => rfl, fun body e => rfl, hdec decode, ?_, ?_⟩
  · intro body s json e h1 h2
    unfold Handler
    simp only [h1, h2]
    rfl
  · intro body hbody
    rcases hbody with h | ⟨err, h⟩ | ⟨limit, remaining, resets, k, b, h, hmem, hbad⟩
    · rw [h]
      exact ⟨_, hdec jsonDecode Body.missing _ _ rfl⟩
    · rw [h]
      exact ⟨_, hdec jsonDecode (Body.invalid err) _ _ rfl⟩
    · rw [h]
      obtain ⟨e, c, he⟩ := jsonDecode_object_err limit remaining resets k b hmem hbad
      exact ⟨_, hdec jsonDecode _ (jsonDecode (Body.object limit remaining resets)).1 _
        (Prod.ext rfl he)⟩

theorem Handler_failure_mapping_witness :
    Handler (fun _ => toBytes "invalid syntax") (fun _ => []) none
        (Body.object (fun _ => 60) (fun _ => 59) [(Bucket.rate, toBytes "\"soon\"")], none)
        jsonDecode (MarshalIndent (fun _ => GoTime.Unix 1700000000 0))
      = ⟨500, some "text/plain; charset=utf-8",
          toBytes "decoding json failed: invalid syntax\n"⟩ :=
  ((Handler_failure_mapping (fun _ => toBytes "invalid syntax") (fun _ => []) jsonDecode
    (MarshalIndent (fun _ => GoTime.Unix 1700000000 0))).2.2.1
      (Body.object (fun _ => 60) (fun _ => 59) [(Bucket.rate, toBytes "\"soon\"")])
      (jsonDecode (Body.object (fun _ => 60) (fun _ => 59)
        [(Bucket.rate, toBytes "\"soon\"")])).1
      (HandlerError.num NumError.ErrSyntax (toBytes "\"soon\"")) (by decide)).trans (by decide)

/-- The encoder of a timestamp returns a nil error. -/
theorem MarshalJSON_error_nil (now : GoTime) (t : Time) :
    (Time.MarshalJSON now t).2 = none := by
  unfold Time.MarshalJSON
  simp only
  split_ifs <;> rfl

/-! ## The shape of the encoded response -/

theorem marshalRateLimit_eq (now : GoTime) (r : RateLimit) :
    marshalRateLimit now r =
      ((if r.Limit = 0 then [] else [("limit", JSONLeaf.number r.Limit)]) ++
        (if r.Remaining = 0 then [] else [("remaining", JSONLeaf.number r.Remaining)]) ++
        [("reset", JSONLeaf.raw (Time.MarshalJSON now r.Reset).1)], none) := by
  have h := (MarshalJSON_error_nil now r.Reset)
  unfold marshalRateLimit
  rcases hM : Time.MarshalJSON now r.Reset with ⟨b, e⟩
  rw [hM] at h
  simp only at h
  subst h
  rfl

theorem marshalResources_eq (clock : Bucket → GoTime) (r : Resources) :
    marshalResources clock r =
      ([("core", (marshalRateLimit (clock Bucket.core) r.Core).1),
        ("search", (marshalRateLimit (clock Bucket.search) r.Search).1),
        ("graphql", (marshalRateLimit (clock Bucket.graphql) r.GraphQL).1),
        ("integration_manifest",
          (marshalRateLimit (clock Bucket.integration_manifest) r.IntegrationManifest).1)],
        none) := by
  unfold marshalResources
  simp only [marshalRateLimit_eq]

theorem marshalResponse_eq (clock : Bucket → GoTime) (s : Response) :
    marshalResponse clock s =
      ([("resources", JSONMember.resources (marshalResources clock s.Resources).1),
        ("rate", JSONMember.rateLimit (marshalRateLimit (clock Bucket.rate) s.Rate).1)],
        none) := by
  unfold marshalResponse
  simp only [marshalResources_eq, marshalRateLimit_eq]

theorem MarshalIndent_eq (clock : Bucket → GoTime) (s : Response) :
    MarshalIndent clock s
      = (renderObject (renderMember 1) 0 (marshalResponse clock s).1, none) := by
  unfold MarshalIndent
  simp only [marshalResponse_eq]

/-- The members of the object written for a `RateLimit`. -/
theorem marshalRateLimit_members (now : GoTime) (r : RateLimit) :
    (marshalRateLimit now r).1.lookup "limit"
        = (if r.Limit = 0 then none else some (JSONLeaf.number r.Limit)) ∧
      (marshalRateLimit now r).1.lookup "remaining"
        = (if r.Remaining = 0 then none else some (JSONLeaf.number r.Remaining)) ∧
      (marshalRateLimit now r).1.lookup "reset"
        = some (JSONLeaf.raw (Time.MarshalJSON now r.Reset).1) := by
  rw [marshalRateLimit_eq]
  by_cases h1 : r.Limit = 0 <;> by_cases h2 : r.Remaining = 0 <;>
    simp [h1, h2, List.lookup]

set_option maxRecDepth 100000 in
/-- C15 (as stated, refuted). A decoded `Response` whose `rate` bucket has `remaining` 0:
the object that the handler emits for `rate` has no member `remaining`. -/
theorem Handler_shape_counterexample :
    (Handler (fun _ => []) (fun _ => []) none
        (Body.object (fun _ => 60) (fun k => if k = Bucket.rate then 0 else 59)
          [(Bucket.core, toBytes "1700003600"), (Bucket.search, toBytes "1700003600"),
            (Bucket.graphql, toBytes "1700003600"),
            (Bucket.integration_manifest, toBytes "1700003600"),
            (Bucket.rate, toBytes "1700003600")], none)
        jsonDecode (MarshalIndent (fun _ => GoTime.Unix 1700000000 0))).body
      = toBytes ("\x7b\n  \"resources\": \x7b\n" ++
          "    \"core\": \x7b\n      \"limit\": 60,\n      \"remaining\": 59,\n" ++
          "      \"reset\": \"\"\n    \x7d,\n" ++
          "    \"search\": \x7b\n      \"limit\": 60,\n      \"remaining\": 59,\n" ++
          "      \"reset\": \"\"\n    \x7d,\n" ++
          "    \"graphql\": \x7b\n      \"limit\": 60,\n      \"remaining\": 59,\n" ++
          "      \"reset\": \"\"\n    \x7d,\n" ++
          "    \"integration_manifest\": \x7b\n      \"limit\": 60,\n" ++
          "      \"remaining\": 59,\n      \"reset\": \"\"\n    \x7d\n  \x7d,\n" ++
          "  \"rate\": \x7b\n    \"limit\": 60,\n    \"reset\": \"\"\n  \x7d\n\x7d") ∧
      (marshalRateLimit (GoTime.Unix 1700000000 0) ⟨60, 0, ⟨GoTime.zero⟩⟩).1.lookup "remaining"
        = none := by
  decide

/-- C15 (amended). For every decoded `Response`, the encoding never fails and the JSON
that the handler emits has the top-level members `resources` and `rate`, under `resources`
the members `core`, `search`, `graphql` and `integration_manifest`, and in each of the five
`RateLimit` objects the member `reset`; the member `limit` (and likewise `remaining`) is
present, with the decoded integer, exactly when that integer is not 0, and is left out
when it is 0. -/
theorem Handler_shape (clock : Bucket → GoTime) (s : Response) :
    MarshalIndent clock s
        = (renderObject (renderMember 1) 0 (marshalResponse clock s).1, none) ∧
      marshalResponse clock s
        = ([("resources", JSONMember.resources
              [("core", (marshalRateLimit (clock Bucket.core) s.Resources.Core).1),
                ("search", (marshalRateLimit (clock Bucket.search) s.Resources.Search).1),
                ("graphql", (marshalRateLimit (clock Bucket.graphql) s.Resources.GraphQL).1),
                ("integration_manifest",
                  (marshalRateLimit (clock Bucket.integration_manifest)
                    s.Resources.IntegrationManifest).1)]),
            ("rate", JSONMember.rateLimit (marshalRateLimit (clock Bucket.rate) s.Rate).1)],
            none) ∧
      (∀ (now : GoTime) (r : RateLimit),
        (marshalRateLimit now r).1.lookup "limit"
            = (if r.Limit = 0 then none else some (JSONLeaf.number r.Limit)) ∧
          (marshalRateLimit now r).1.lookup "remaining"
            = (if r.Remaining = 0 then none else some (JSONLeaf.number r.Remaining)) ∧
          (marshalRateLimit now r).1.lookup "reset"
            = some (JSONLeaf.raw (Time.MarshalJSON now r.Reset).1)) := by
  refine ⟨MarshalIndent_eq clock s, ?_, marshalRateLimit_members⟩
  rw [marshalResponse_eq, marshalResources_eq]

/-! ## The encoded reset text and the format string -/

theorem toBytes_append (a b : String) : toBytes (a ++ b) = toBytes a ++ toBytes b := by
  unfold toBytes
  rw [String.data_append, List.map_append]

theorem toBytes_ToLower_append (a b : String) :
    toBytes (ToLower (a ++ b)) = toBytes (ToLower a) ++ toBytes (ToLower b) := by
  unfold toBytes ToLower
  simp only [String.data_append, List.map_append]

theorem singleSpaces_cons_of_ne (a : UInt8) (l : Bytes) (ha : a.toNat ≠ 32) :
    singleSpaces (a :: l) = singleSpaces l := by
  cases l with
  | nil => rfl
  | cons b r =>
    have e : singleSpaces (a :: b :: r)
        = (!(decide (a.toNat = 32) && decide (b.toNat = 32)) && singleSpaces (b :: r)) := rfl
    rw [e]
    simp [ha]

/-- Digits in front of a plain text leave it plain. -/
theorem plainText_digits_append (ds rest : Bytes)
    (hd : ∀ b ∈ ds, 48 ≤ b.toNat ∧ b.toNat ≤ 57) (hrest : plainText rest = true) :
    plainText (ds ++ rest) = true := by
  induction ds with
  | nil => exact hrest
  | cons a ds ih =>
    have ha := hd a (List.mem_cons_self a ds)
    have ih1 := ih (fun b hb => hd b (List.mem_cons_of_mem a hb))
    unfold plainText at ih1 ⊢
    rw [Bool.and_eq_true] at ih1 ⊢
    rw [List.cons_append, List.all_cons, singleSpaces_cons_of_ne a _ (by omega),
      Bool.and_eq_true]
    refine ⟨⟨?_, ih1.1⟩, ih1.2⟩
    unfold isPlainByte
    simp [ha.1, ha.2]

theorem digit_bytes (c : Char) (hc : c ∈ digitChars) :
    48 ≤ (UInt8.ofNat (Char.toLower c).toNat).toNat ∧
      (UInt8.ofNat (Char.toLower c).toNat).toNat ≤ 57 := by
  revert c
  decide

/-- The lower-cased numeral of a non-negative count in front of a plain unit name. -/
theorem plainText_count (n : Int) (hn : 0 ≤ n) (unit : String)
    (hu : plainText (toBytes (ToLower unit)) = true) :
    plainText (toBytes (ToLower (fmtD n ++ unit))) = true := by
  rw [toBytes_ToLower_append]
  apply plainText_digits_append _ _ _ hu
  intro b hb
  unfold toBytes ToLower at hb
  simp only [List.map_map, List.mem_map, Function.comp] at hb
  obtain ⟨c, hc, rfl⟩ := hb
  exact digit_bytes c (fmtD_digits n hn c hc)

/-- The lower-cased label of every duration is plain: lower case letters, digits and
single spaces. -/
theorem plainText_humanDuration (d : ℤ) :
    plainText (toBytes (ToLower (humanDuration d))) = true := by
  rcases humanDuration_cases d with h | h | ⟨m, h1, h2, h⟩ | h | ⟨m, h1, h2, h⟩ | h |
    ⟨m, h1, h2, h⟩ | ⟨m, h1, h2, h⟩ | ⟨m, h1, h2, h⟩ | ⟨m, h1, h2, h⟩ | ⟨m, h1, h⟩ <;>
    rw [h] <;>
    first
    | decide
    | exact plainText_count m (by omega) _ (by decide)

/-- The bytes of an encoded timestamp: a quote, a plain text, a quote. -/
theorem MarshalJSON_plain (now : GoTime) (t : Time) :
    ∃ text, (Time.MarshalJSON now t).1 = 34 :: (text ++ [34]) ∧ plainText text = true := by
  unfold Time.MarshalJSON
  simp only
  split_ifs
  · exact ⟨[], rfl, rfl⟩
  · refine ⟨toBytes (ToLower (humanDuration (Until now t.time))), ?_,
      plainText_humanDuration _⟩
    rw [toBytes_append, toBytes_append]
    rfl

theorem isPlainByte_facts (c : UInt8) (h : isPlainByte c = true) :
    c ≠ 34 ∧ c ≠ 92 ∧ c ≠ 37 ∧ 32 ≤ c.toNat ∧ c.toNat < 127 := by
  unfold isPlainByte at h
  simp only [Bool.or_eq_true, Bool.and_eq_true, decide_eq_true_eq] at h
  refine ⟨?_, ?_, ?_, by omega, by omega⟩ <;>
  · intro hc
    rw [hc] at h
    revert h
    decide

theorem not_mem_of_plainText (text : Bytes) (h : plainText text = true) : (37 : UInt8) ∉ text := by
  intro hmem
  unfold plainText at h
  rw [Bool.and_eq_true, List.all_eq_true] at h
  exact (isPlainByte_facts 37 (h.1 37 hmem)).2.2.1 rfl

theorem renderLeaf_number_no_percent (n : Int) :
    (37 : UInt8) ∉ renderLeaf (JSONLeaf.number n) := by
  unfold renderLeaf toBytes
  intro hmem
  rw [List.mem_map] at hmem
  obtain ⟨c, hc, he⟩ := hmem
  have key : ∀ x ∈ '-' :: digitChars, UInt8.ofNat x.toNat ≠ (37 : UInt8) := by decide
  exact key c (fmtD_chars n c hc) he

theorem renderLeaf_reset_no_percent (now : GoTime) (t : Time) :
    (37 : UInt8) ∉ renderLeaf (JSONLeaf.raw (Time.MarshalJSON now t).1) := by
  obtain ⟨text, h, hp⟩ := MarshalJSON_plain now t
  unfold renderLeaf
  rw [h]
  intro hmem
  rcases List.mem_cons.mp hmem with h1 | h1
  · exact absurd h1 (by decide)
  · rcases List.mem_append.mp h1 with h2 | h2
    · exact not_mem_of_plainText text hp h2
    · rw [List.mem_singleton] at h2
      exact absurd h2 (by decide)

theorem indentation_no_percent (depth : Nat) : (37 : UInt8) ∉ newlineIndent depth := by
  unfold newlineIndent
  induction depth with
  | zero => decide
  | succ n ih =>
    unfold indentation
    intro hmem
    apply ih
    rcases List.mem_cons.mp hmem with h | h
    · exact absurd h (by decide)
    · rcases List.mem_cons.mp h with h | h
      · exact absurd h (by decide)
      · rcases List.mem_cons.mp h with h | h
        · exact absurd h (by decide)
        · exact List.mem_cons_of_mem _ h

/-- An object is free of `%` when its names and its values are. -/
theorem renderObject_no_percent {α : Type} (render : α → Bytes) (depth : Nat)
    (o : List (String × α))
    (h : ∀ kv ∈ o, (37 : UInt8) ∉ renderKey kv.1 ∧ (37 : UInt8) ∉ render kv.2) :
    (37 : UInt8) ∉ renderObject render depth o := by
  have hm : ∀ (l : List (String × α)),
      (∀ kv ∈ l, (37 : UInt8) ∉ renderKey kv.1 ∧ (37 : UInt8) ∉ render kv.2) →
      (37 : UInt8) ∉ renderMembers render (depth + 1) l := by
    intro l
    induction l with
    | nil =>
      intro _
      unfold renderMembers
      exact List.not_mem_nil _
    | cons kv rest ih =>
      intro hl
      obtain ⟨k, v⟩ := kv
      have hkv := hl (k, v) (List.mem_cons_self _ _)
      have hrest := ih (fun x hx => hl x (List.mem_cons_of_mem _ hx))
      unfold renderMembers
      intro hmem
      rcases List.mem_append.mp hmem with h1 | h1
      · rcases List.mem_append.mp h1 with h2 | h2
        · rcases List.mem_append.mp h2 with h3 | h3
          · exact hkv.1 h3
          · exact hkv.2 h3
        · cases rest with
          | nil => exact absurd h2 (List.not_mem_nil _)
          | cons x xs =>
            rcases List.mem_cons.mp h2 with h3 | h3
            · exact absurd h3 (by decide)
            · exact indentation_no_percent (depth + 1) h3
      · exact hrest h1
  cases o with
  | nil =>
    show (37 : UInt8) ∉ [123, 125]
    decide
  | cons kv rest =>
    unfold renderObject
    simp only
    intro hmem
    rcases List.mem_cons.mp hmem with h1 | h1
    · exact absurd h1 (by decide)
    · rcases List.mem_append.mp h1 with h2 | h2
      · rcases List.mem_append.mp h2 with h3 | h3
        · rcases List.mem_append.mp h3 with h4 | h4
          · exact indentation_no_percent (depth + 1) h4
          · exact hm _ h h4
        · exact indentation_no_percent depth h3
      · rw [List.mem_singleton] at h2
        exact absurd h2 (by decide)

theorem renderRateLimit_no_percent (now : GoTime) (r : RateLimit) (depth : Nat) :
    (37 : UInt8) ∉ renderObject renderLeaf depth (marshalRateLimit now r).1 := by
  apply renderObject_no_percent
  rw [marshalRateLimit_eq]
  intro kv hkv
  simp only [List.mem_append, List.mem_singleton] at hkv
  rcases hkv with (h | h) | h
  · split_ifs at h
    · exact absurd h (List.not_mem_nil _)
    · rw [List.mem_singleton] at h
      rw [h]
      refine ⟨?_, renderLeaf_number_no_percent _⟩
      show (37 : UInt8) ∉ renderKey "limit"
      decide
  · split_ifs at h
    · exact absurd h (List.not_mem_nil _)
    · rw [List.mem_singleton] at h
      rw [h]
      refine ⟨?_, renderLeaf_number_no_percent _⟩
      show (37 : UInt8) ∉ renderKey "remaining"
      decide
  · rw [h]
    refine ⟨?_, renderLeaf_reset_no_percent _ _⟩
    show (37 : UInt8) ∉ renderKey "reset"
    decide

/-- The encoded `Response` holds no `%`. -/
theorem MarshalIndent_no_percent (clock : Bucket → GoTime) (s : Response) :
    (37 : UInt8) ∉ (MarshalIndent clock s).1 := by
  rw [MarshalIndent_eq, marshalResponse_eq, marshalResources_eq]
  dsimp only
  apply renderObject_no_percent
  intro kv hkv
  simp only [List.mem_cons, List.mem_singleton, List.not_mem_nil, or_false] at hkv
  rcases hkv with h | h
  · rw [h]
    refine ⟨?_, ?_⟩
    · show (37 : UInt8) ∉ renderKey "resources"
      decide
    · dsimp only [renderMember]
      apply renderObject_no_percent
      intro kv2 hkv2
      simp only [List.mem_cons, List.mem_singleton, List.not_mem_nil, or_false] at hkv2
      rcases hkv2 with h2 | h2 | h2 | h2 <;> rw [h2] <;>
        refine ⟨?_, renderRateLimit_no_percent _ _ _⟩
      · show (37 : UInt8) ∉ renderKey "core"
        decide
      · show (37 : UInt8) ∉ renderKey "search"
        decide
      · show (37 : UInt8) ∉ renderKey "graphql"
        decide
      · show (37 : UInt8) ∉ renderKey "integration_manifest"
        decide
  · rw [h]
    dsimp only [renderMember]
    refine ⟨?_, renderRateLimit_no_percent _ _ _⟩
    show (37 : UInt8) ∉ renderKey "rate"
    decide

/-- A format string without `%` is written unchanged. -/
theorem Fprintf_of_no_percent (verbs : Bytes → Bytes) (format : Bytes)
    (h : (37 : UInt8) ∉ format) : Fprintf verbs format = format := by
  induction format with
  | nil => rfl
  | cons c rest ih =>
    unfold Fprintf
    have hc : c ≠ 37 := fun hc => h (by rw [hc]; exact List.mem_cons_self _ _)
    rw [if_neg hc, ih (fun hm => h (List.mem_cons_of_mem _ hm))]

/-- C16. The encoded reset text is a safe JSON string and format string: for every `Time`
and every clock reading the bytes of `MarshalJSON` are a double quote, a text of lower case
letters, decimal digits and single spaces only (so no quote, backslash, control character
or `%`), and a double quote; the encoded `Response` holds no `%`, `Fprintf` writes it
unchanged, and on success the handler answers 200 with exactly the encoded bytes. -/
theorem encoded_reset_safe :
    (∀ (now : GoTime) (t : Time),
        ∃ text, (Time.MarshalJSON now t).1 = 34 :: (text ++ [34]) ∧ plainText text = true) ∧
      (∀ c : UInt8, isPlainByte c = true →
        c ≠ 34 ∧ c ≠ 92 ∧ c ≠ 37 ∧ 32 ≤ c.toNat ∧ c.toNat < 127) ∧
      (∀ (clock : Bucket → GoTime) (s : Response),
        (MarshalIndent clock s).2 = none ∧ (37 : UInt8) ∉ (MarshalIndent clock s).1) ∧
      (∀ (verbs : Bytes → Bytes) (clock : Bucket → GoTime) (s : Response),
        Fprintf verbs (MarshalIndent clock s).1 = (MarshalIndent clock s).1) ∧
      (∀ (errText : HandlerError → Bytes) (verbs : Bytes → Bytes) (clock : Bucket → GoTime)
          (body : Body) (s : Response), jsonDecode body = (s, none) →
        Handler errText verbs none (body, none) jsonDecode (MarshalIndent clock)
          = ⟨200, none, (MarshalIndent clock s).1⟩) := by
  refine ⟨MarshalJSON_plain, isPlainByte_facts, fun clock s => ⟨?_, MarshalIndent_no_percent clock s⟩,
    fun verbs clock s => Fprintf_of_no_percent verbs _ (MarshalIndent_no_percent clock s), ?_⟩
  · rw [MarshalIndent_eq]
  · intro errText verbs clock body s hdec
    have hF := Fprintf_of_no_percent verbs _ (MarshalIndent_no_percent clock s)
    have hM := MarshalIndent_eq clock s
    unfold Handler
    simp only [hdec]
    rw [hM] at hF ⊢
    simp only
    rw [hF]

set_option maxRecDepth 100000 in
theorem encoded_reset_safe_witness :
    Handler (fun _ => []) (fun _ => toBytes "%!(NOVERB)") none
        (Body.object (fun _ => 0) (fun _ => 0) [(Bucket.rate, toBytes "1700003600")], none)
        jsonDecode (MarshalIndent (fun _ => GoTime.Unix 1700000000 0))
      = ⟨200, none, toBytes ("\x7b\n  \"resources\": \x7b\n" ++
          "    \"core\": \x7b\n      \"reset\": \"\"\n    \x7d,\n" ++
          "    \"search\": \x7b\n      \"reset\": \"\"\n    \x7d,\n" ++
          "    \"graphql\": \x7b\n      \"reset\": \"\"\n    \x7d,\n" ++
          "    \"integration_manifest\": \x7b\n      \"reset\": \"\"\n    \x7d\n  \x7d,\n" ++
          "  \"rate\": \x7b\n    \"reset\": \"\"\n  \x7d\n\x7d")⟩ := by
  have h := encoded_reset_safe.2.2.2.2 (fun _ => []) (fun _ => toBytes "%!(NOVERB)")
    (fun _ => GoTime.Unix 1700000000 0)
    (Body.object (fun _ => 0) (fun _ => 0) [(Bucket.rate, toBytes "1700003600")])
    (jsonDecode (Body.object (fun _ => 0) (fun _ => 0)
      [(Bucket.rate, toBytes "1700003600")])).1 (by decide)
  rw [h]
  decide

end RateLimit
